import Mathlib

/-!
Verification of the `llvm-bolt-align` tool: the CLI driver is embedded from
`bolt/tools/align/align.cpp`; the alignment engine (Content Digest, Function
Matcher, Block Aligner, Correspondence Map) is not part of the source tree,
so it is modelled from the design specification.
-/

namespace Align

/-- Modelled from the spec: edge kinds tagging outgoing control-flow edges
(spec §3, Basic Block: fallthrough/branch-taken/branch-indirect/call/return). -/
inductive EdgeKind
  | fallthrough
  | taken
  | indirect
  | call
  | ret
deriving DecidableEq

/-- Modelled from the spec: an opaque instruction record (opcode class +
normalized operand shape, address-valued operands abstracted away; spec §3). -/
structure Instr where
  opcode : Nat
  shape : Nat
deriving DecidableEq

/-- Modelled from the spec: a basic block with identifier, ordered instruction
sequence and outgoing edges tagged by kind (spec §3). -/
structure BasicBlock where
  id : Nat
  insns : List Instr
  succs : List (EdgeKind × Nat)
deriving DecidableEq

/-- Modelled from the spec: a function with stable identifier, optional name,
entry block identifier and ordered block sequence (spec §3). -/
structure Func where
  id : Nat
  name : Option String
  entry : Nat
  blocks : List BasicBlock
deriving DecidableEq

/-- Modelled from the spec: a program owns an ordered sequence of functions
(spec §3). -/
structure Program where
  funcs : List Func
deriving DecidableEq

/-! ### Content Digest (spec §4.1, modelled from the spec: the digest
component is not in the source tree) -/

/-- Modelled from the spec: block digest, order-sensitive over normalized
instruction content (opcode and operand kind retained, addresses dropped). -/
def blockDigest (b : BasicBlock) : List (Nat × Nat) :=
  b.insns.map (fun i => (i.opcode, i.shape))

/-- The block of `f` whose identifier is `f.entry`, when present. -/
def entryBlock (f : Func) : Option BasicBlock :=
  f.blocks.find? (fun b => b.id = f.entry)

/-- Modelled from the spec: the multiset of block digests of a function
(commutative combination over block digests, spec §4.1). -/
def blockBag (f : Func) : Multiset (List (Nat × Nat)) :=
  (f.blocks.map blockDigest : List (List (Nat × Nat)))

/-- Modelled from the spec: function digest = deterministic combination of
block count, entry block digest, and the multiset of block digests. -/
def funcDigest (f : Func) : Nat × Option (List (Nat × Nat)) × Multiset (List (Nat × Nat)) :=
  (f.blocks.length, (entryBlock f).map blockDigest, blockBag f)

/-- Modelled from the spec: per-function edge shape, used to validate
exact-digest matches (spec §4.1: compare block counts and edge-shape). -/
def edgeShape (f : Func) : Multiset (List EdgeKind) :=
  (f.blocks.map (fun b => b.succs.map Prod.fst) : List (List EdgeKind))

/-! ### Function Matcher (spec §4.2, modelled from the spec) -/

/-- Confidence tag recording which matching pass produced a pairing. -/
inductive Confidence
  | exact
  | name
  | fuzzy
deriving DecidableEq

/-- The sole element of a one-element list, `none` otherwise. -/
def pickUnique (l : List Func) : Option Func :=
  match l with
  | [b] => some b
  | _ => none

/-- Decision for one function of side A in the exact pass: its digest class
must be a singleton on each side, and the edge shape must validate. -/
def exactBody (A B : List Func) (a : Func) : Option (Nat × Nat) :=
  if (A.filter (fun x => funcDigest x = funcDigest a)).length = 1 then
    match pickUnique (B.filter (fun x => funcDigest x = funcDigest a)) with
    | some b => if edgeShape b = edgeShape a then some (a.id, b.id) else none
    | none => none
  else none

/-- Modelled from the spec: exact pass — group by content digest, match a
digest class only when it is a singleton on each side, validating edge shape. -/
def exactPairs (A B : List Func) : List (Nat × Nat) :=
  A.filterMap (exactBody A B)

/-- Decision for one function of side A in the name pass: its name must be
present and unique within each binary. -/
def nameBody (A B : List Func) (a : Func) : Option (Nat × Nat) :=
  match a.name with
  | none => none
  | some n =>
    if (A.filter (fun x => x.name = some n)).length = 1 then
      match pickUnique (B.filter (fun x => x.name = some n)) with
      | some b => some (a.id, b.id)
      | none => none
    else none

/-- Modelled from the spec: name pass — match present, identical names that
are unique within each binary; colliding names are skipped. -/
def namePairs (A B : List Func) : List (Nat × Nat) :=
  A.filterMap (nameBody A B)

/-- Number of blocks of a function. -/
def blockCount (f : Func) : Nat := f.blocks.length

/-- Number of outgoing edges of a function. -/
def edgeCount (f : Func) : Nat := (f.blocks.map (fun b => b.succs.length)).sum

/-- A bounded closeness measure on naturals (4 = equal, decreasing with
distance, 0 beyond distance 4). -/
def closeness (x y : Nat) : Nat := 4 - min 4 (max x y - min x y)

/-- Modelled from the spec: bag-of-blocks overlap between two functions. -/
def bagOverlap (a b : Func) : Nat := Multiset.card (blockBag a ∩ blockBag b)

/-- Modelled from the spec: fuzzy similarity — weighted combination of
bag-of-blocks overlap, block-count closeness and edge-count closeness.
The exact weights are an explicit tuning constant (spec §9). -/
def fuzzyScore (a b : Func) : Nat :=
  3 * bagOverlap a b + closeness (blockCount a) (blockCount b) +
    closeness (edgeCount a) (edgeCount b)

/-- Similarity floor for the function-level fuzzy pass (tuning constant). -/
def fuzzyFloor : Nat := 5

/-- Strict lexicographic order on score keys: score, then combined size,
then the two identifiers (the last two make maxima unique). -/
def kLt (p q : Nat × Nat × Nat × Nat) : Prop :=
  p.1 < q.1 ∨ (p.1 = q.1 ∧ (p.2.1 < q.2.1 ∨ (p.2.1 = q.2.1 ∧
    (p.2.2.1 < q.2.2.1 ∨ (p.2.2.1 = q.2.2.1 ∧ p.2.2.2 < q.2.2.2)))))

instance (p q : Nat × Nat × Nat × Nat) : Decidable (kLt p q) := by
  unfold kLt; infer_instance

/-- The element of `l` with the greatest key (first such element on ties). -/
def pickMax (key : α → Nat × Nat × Nat × Nat) (l : List α) : Option α :=
  l.foldl (fun acc c =>
    match acc with
    | none => some c
    | some m => if kLt (key m) (key c) then some c else some m) none

/-- Modelled from the spec: stable greedy assignment — repeatedly commit the
highest-scoring candidate pair above the floor and remove both sides.
The fuel bounds the number of committed pairs. -/
def greedy (idOf : α → Nat) (key : α → α → Nat × Nat × Nat × Nat)
    (ok : α → α → Bool) : Nat → List α → List α → List (Nat × Nat)
  | 0, _, _ => []
  | fuel + 1, remA, remB =>
    match pickMax (fun p => key p.1 p.2)
        ((remA.product remB).filter (fun p => ok p.1 p.2)) with
    | none => []
    | some (a, b) =>
      (idOf a, idOf b) ::
        greedy idOf key ok fuel (remA.filter (fun x => ¬ idOf x = idOf a))
          (remB.filter (fun x => ¬ idOf x = idOf b))

/-- Score key for the function-level fuzzy pass: similarity, then combined
block count (spec's tie-break), then identifiers. -/
def funcKey (a b : Func) : Nat × Nat × Nat × Nat :=
  (fuzzyScore a b, blockCount a + blockCount b, a.id, b.id)

/-- Eligibility of a fuzzy candidate pair: similarity above the floor. -/
def funcOk (a b : Func) : Bool := decide (fuzzyFloor ≤ fuzzyScore a b)

/-- Modelled from the spec: the function-level fuzzy pass. -/
def fuzzyPairs (A B : List Func) : List (Nat × Nat) :=
  greedy Func.id funcKey funcOk A.length A B

/-- Result of the Function Matcher: matched pairs with confidence tags and
the unmatched residue on each side. -/
structure MatchResult where
  pairs : List (Nat × Nat × Confidence)
  unmatchedA : List Nat
  unmatchedB : List Nat
deriving DecidableEq

/-- The exact pass of one run. -/
def exactStage (A B : Program) : List (Nat × Nat) :=
  exactPairs A.funcs B.funcs

/-- Side A functions still unmatched after the exact pass. -/
def restA1 (A B : Program) : List Func :=
  A.funcs.filter (fun a => ¬ (exactStage A B).any (fun p => p.1 = a.id))

/-- Side B functions still unmatched after the exact pass. -/
def restB1 (A B : Program) : List Func :=
  B.funcs.filter (fun b => ¬ (exactStage A B).any (fun p => p.2 = b.id))

/-- The name pass of one run, over the still-unmatched functions. -/
def nameStage (A B : Program) : List (Nat × Nat) :=
  namePairs (restA1 A B) (restB1 A B)

/-- Side A functions still unmatched after the name pass. -/
def restA2 (A B : Program) : List Func :=
  (restA1 A B).filter (fun a => ¬ (nameStage A B).any (fun p => p.1 = a.id))

/-- Side B functions still unmatched after the name pass. -/
def restB2 (A B : Program) : List Func :=
  (restB1 A B).filter (fun b => ¬ (nameStage A B).any (fun p => p.2 = b.id))

/-- The fuzzy pass of one run, over the remaining functions. -/
def fuzzyStage (A B : Program) : List (Nat × Nat) :=
  fuzzyPairs (restA2 A B) (restB2 A B)

/-- All matched pairs of one run, tagged with the producing pass. -/
def allPairs (A B : Program) : List (Nat × Nat × Confidence) :=
  (exactStage A B).map (fun p => (p.1, p.2, Confidence.exact)) ++
    (nameStage A B).map (fun p => (p.1, p.2, Confidence.name)) ++
    (fuzzyStage A B).map (fun p => (p.1, p.2, Confidence.fuzzy))

/-- Modelled from the spec: Function Matcher — cascade of exact, name and
fuzzy passes over the still-unmatched functions of each side (spec §4.2). -/
def matchFuncs (A B : Program) : MatchResult :=
  { pairs := allPairs A B
    unmatchedA := (A.funcs.filter
      (fun a => ¬ (allPairs A B).any (fun p => p.1 = a.id))).map Func.id
    unmatchedB := (B.funcs.filter
      (fun b => ¬ (allPairs A B).any (fun p => p.2.1 = b.id))).map Func.id }

/-! ### Block Aligner (spec §4.3, modelled from the spec) -/

/-- Successor identifiers of a block along edges of one kind, in edge order. -/
def succsOfKind (b : BasicBlock) (k : EdgeKind) : List Nat :=
  b.succs.filterMap (fun e => if e.1 = k then some e.2 else none)

/-- All edge kinds. -/
def allKinds : List EdgeKind :=
  [.fallthrough, .taken, .indirect, .call, .ret]

/-- The block of `f` with identifier `i`, when present. -/
def findBlock (f : Func) (i : Nat) : Option BasicBlock :=
  f.blocks.find? (fun b => b.id = i)

/-- Modelled from the spec: candidate successor pairs derived from one
matched block pair, grouped by edge kind (spec §4.3 step 2). -/
def propCandidates (fa fb : Func) (p : Nat × Nat) : List (Nat × Nat) :=
  match findBlock fa p.1, findBlock fb p.2 with
  | some x, some y =>
    (allKinds.map (fun k => (succsOfKind x k).zip (succsOfKind y k))).flatten
  | _, _ => []

/-- Length slack tolerated by the propagation pass (tuning constant). -/
def slack : Nat := 1

/-- Modelled from the spec: digests equal, or opcode sequence lengths within
the configured slack (spec §4.3 step 2 tolerance). -/
def digestClose (x y : BasicBlock) : Bool :=
  decide (blockDigest x = blockDigest y) ||
    (decide (x.insns.length ≤ y.insns.length + slack) &&
      decide (y.insns.length ≤ x.insns.length + slack))

/-- Commit one candidate pair: append it when neither side is matched yet,
both blocks exist, and their digests are close. -/
def commitStep (fa fb : Func) (M : List (Nat × Nat)) (c : Nat × Nat) :
    List (Nat × Nat) :=
  if M.any (fun p => p.1 = c.1) ∨ M.any (fun p => p.2 = c.2) then M
  else
    match findBlock fa c.1, findBlock fb c.2 with
    | some x, some y => if digestClose x y then M ++ [c] else M
    | _, _ => M

/-- Commit candidate pairs in order. -/
def commitNew (fa fb : Func) (M : List (Nat × Nat)) (cands : List (Nat × Nat)) :
    List (Nat × Nat) :=
  cands.foldl (commitStep fa fb) M

/-- Modelled from the spec: breadth-first propagation to a fixed point from
the already-matched pairs (spec §4.3 step 2). -/
def propagate (fa fb : Func) : Nat → List (Nat × Nat) → List (Nat × Nat)
  | 0, M => M
  | fuel + 1, M =>
    if (commitNew fa fb M ((M.map (propCandidates fa fb)).flatten)).length = M.length
    then M
    else propagate fa fb fuel (commitNew fa fb M ((M.map (propCandidates fa fb)).flatten))

/-- Successor count of a block. -/
def blockSucc (b : BasicBlock) : Nat := b.succs.length

/-- Modelled from the spec: residual block score — digest equality plus
successor-count equality (spec §4.3 step 3). -/
def blockScore (x y : BasicBlock) : Nat :=
  2 * (if blockDigest x = blockDigest y then 1 else 0) +
    (if blockSucc x = blockSucc y then 1 else 0)

/-- Floor for the residual block pass: digest equality is required. -/
def blockFloor : Nat := 2

/-- Eligibility of a residual block candidate pair. -/
def blockOk (x y : BasicBlock) : Bool := decide (blockFloor ≤ blockScore x y)

/-- Score key for the residual block pass. -/
def blockKey (x y : BasicBlock) : Nat × Nat × Nat × Nat :=
  (blockScore x y, 0, x.id, y.id)

/-- Result of the Block Aligner for one matched function pair. -/
structure BlockAlignResult where
  pairs : List (Nat × Nat)
  unmatchedA : List Nat
  unmatchedB : List Nat
deriving DecidableEq

/-- Modelled from the spec: Block Aligner — entry anchor, propagation to a
fixed point, then the residual fuzzy pass (spec §4.3). -/
def alignBlocks (fa fb : Func) : BlockAlignResult :=
  let M0 := [(fa.entry, fb.entry)]
  let M1 := propagate fa fb (fa.blocks.length + fb.blocks.length) M0
  let remA := fa.blocks.filter (fun b => ¬ M1.any (fun p => p.1 = b.id))
  let remB := fb.blocks.filter (fun b => ¬ M1.any (fun p => p.2 = b.id))
  let M2 := M1 ++ greedy BasicBlock.id blockKey blockOk remA.length remA remB
  { pairs := M2
    unmatchedA := (fa.blocks.filter (fun b => ¬ M2.any (fun p => p.1 = b.id))).map BasicBlock.id
    unmatchedB := (fb.blocks.filter (fun b => ¬ M2.any (fun p => p.2 = b.id))).map BasicBlock.id }

/-! ### Correspondence Map (spec §4.4, modelled from the spec) -/

/-- The aggregate bidirectional result object: function pairs with
confidence, unmatched residue, and a block-level result per matched pair. -/
structure CorrMap where
  funcPairs : List (Nat × Nat × Confidence)
  unmatchedA : List Nat
  unmatchedB : List Nat
  blockMaps : List (Nat × Nat × BlockAlignResult)
deriving DecidableEq

/-- The function of `P` with identifier `i`, when present. -/
def findFunc (P : Program) (i : Nat) : Option Func :=
  P.funcs.find? (fun f => f.id = i)

/-- Modelled from the spec: the full alignment run — match functions, then
align blocks once per matched function pair (spec §2 control flow). -/
def alignPrograms (A B : Program) : CorrMap :=
  let m := matchFuncs A B
  { funcPairs := m.pairs
    unmatchedA := m.unmatchedA
    unmatchedB := m.unmatchedB
    blockMaps := m.pairs.filterMap (fun p =>
      match findFunc A p.1, findFunc B p.2.1 with
      | some fa, some fb => some (p.1, p.2.1, alignBlocks fa fb)
      | _, _ => none) }

end Align

namespace AlignCLI

/-! ### CLI driver, embedded from `bolt/tools/align/align.cpp` -/

/-- What `createBinary` produced: an ELF object file or some other binary
(`dyn_cast<ELFObjectFileBase>` succeeds only on the former). -/
inductive BinKind
  | elf
  | other
deriving DecidableEq

deriving instance DecidableEq for Except

/-- The environment one `main` invocation observes: the two input paths and
the outcome of each fallible stage, in the order the code performs them. -/
structure World where
  input1 : String
  input2 : String
  exists1 : Bool
  exists2 : Bool
  parse1 : Except String BinKind
  parse2 : Except String BinKind
  create1 : Except String Unit
  create2 : Except String Unit
  run1 : Except String Unit
  run2 : Except String Unit
deriving DecidableEq

/-- `static StringRef ToolName = "llvm-bolt-align";` -/
def ToolName : String := "llvm-bolt-align"

/-- Message of `errc::no_such_file_or_directory`. -/
def noSuchFileMsg : String := "No such file or directory"

/-- Message of `object_error::invalid_file_type`. -/
def invalidFileTypeMsg : String :=
  "The file was not recognized as a valid object file"

/-- One diagnostic line of `report_error`:
`ToolName << ": '" << Message << "': " << error << ".\n"`. -/
def errLine (file msg : String) : String :=
  ToolName ++ ": " ++ "'" ++ file ++ "'" ++ ": " ++ msg ++ "."

/-- Observable outcome of one `main` invocation: stderr lines, exit status,
and whether `alignBinaries` was reached. -/
structure CLIResult where
  errors : List String
  exitCode : Nat
  alignInvoked : Bool
deriving DecidableEq

/-- `EXIT_SUCCESS`. -/
def EXIT_SUCCESS : Nat := 0

/-- Embedding of `main` (align.cpp:117-165): existence checks, binary
parsing, ELF type checks, `RewriteInstance` creation and runs — input 1
before input 2 at every stage — then `alignBinaries` and `EXIT_SUCCESS`;
each failure reports one `report_error` line and exits with status 1. -/
def mainRun (w : World) : CLIResult :=
  if ¬ w.exists1 then ⟨[errLine w.input1 noSuchFileMsg], 1, false⟩
  else if ¬ w.exists2 then ⟨[errLine w.input2 noSuchFileMsg], 1, false⟩
  else
    match w.parse1 with
    | .error m => ⟨[errLine w.input1 m], 1, false⟩
    | .ok b1 =>
      match w.parse2 with
      | .error m => ⟨[errLine w.input2 m], 1, false⟩
      | .ok b2 =>
        if ¬ b1 = .elf then ⟨[errLine w.input1 invalidFileTypeMsg], 1, false⟩
        else if ¬ b2 = .elf then ⟨[errLine w.input2 invalidFileTypeMsg], 1, false⟩
        else
          match w.create1 with
          | .error m => ⟨[errLine w.input1 m], 1, false⟩
          | .ok _ =>
            match w.create2 with
            | .error m => ⟨[errLine w.input2 m], 1, false⟩
            | .ok _ =>
              match w.run1 with
              | .error m => ⟨[errLine w.input1 m], 1, false⟩
              | .ok _ =>
                match w.run2 with
                | .error m => ⟨[errLine w.input2 m], 1, false⟩
                | .ok _ => ⟨[], EXIT_SUCCESS, true⟩

/-- Every stage of `main` succeeded. -/
def allOk (w : World) : Prop :=
  w.exists1 = true ∧ w.exists2 = true ∧
    w.parse1 = .ok .elf ∧ w.parse2 = .ok .elf ∧
    w.create1 = .ok () ∧ w.create2 = .ok () ∧
    w.run1 = .ok () ∧ w.run2 = .ok ()

instance (w : World) : Decidable (allOk w) := by
  unfold allOk; infer_instance

end AlignCLI

open Align AlignCLI

/-! ### Theorems about the CLI driver -/

/-- A successful world: both files exist, parse as ELF, and every
`RewriteInstance` stage succeeds. -/
def wAllOk : World :=
  ⟨"bin1", "bin2", true, true, .ok .elf, .ok .elf, .ok (), .ok (), .ok (), .ok ()⟩

/-- A world in which both input files are missing. -/
def wBothMissing : World :=
  ⟨"bin1", "bin2", false, false, .ok .elf, .ok .elf, .ok (), .ok (), .ok (), .ok ()⟩

/-- C7: if `main` reaches `alignBinaries`, then both inputs were found to
exist, both parsed as binaries, and both were confirmed to be ELF object
files — all validation precedes alignment. -/
theorem mainRun_validates_before_align (w : World)
    (h : (mainRun w).alignInvoked = true) :
    w.exists1 = true ∧ w.exists2 = true ∧
      w.parse1 = .ok .elf ∧ w.parse2 = .ok .elf := by
  unfold mainRun at h
  repeat' split at h
  all_goals simp_all

/-- Witness for C7 at a concrete all-success world. -/
theorem mainRun_validates_before_align_witness :
    wAllOk.exists1 = true ∧ wAllOk.exists2 = true ∧
      wAllOk.parse1 = .ok .elf ∧ wAllOk.parse2 = .ok .elf :=
  mainRun_validates_before_align wAllOk (by decide)

/-- C8: whenever any stage fails, `main` emits exactly one `report_error`
line — tool name, offending file name and message — exits with status 1 and
never attempts alignment; when every stage succeeds it exits with
`EXIT_SUCCESS` after invoking alignment. -/
theorem mainRun_error_discipline (w : World) :
    (allOk w → mainRun w = ⟨[], EXIT_SUCCESS, true⟩) ∧
    (¬ allOk w → (mainRun w).exitCode = 1 ∧ (mainRun w).alignInvoked = false ∧
      ∃ f m, (mainRun w).errors = [errLine f m] ∧ (f = w.input1 ∨ f = w.input2)) := by
  constructor
  · intro h
    obtain ⟨h1, h2, h3, h4, h5, h6, h7, h8⟩ := h
    unfold mainRun
    simp [h1, h2, h3, h4, h5, h6, h7, h8]
  · intro h
    unfold allOk at h
    unfold mainRun
    repeat' split
    all_goals simp_all
    all_goals first
      | exact ⟨_, ⟨_, rfl⟩, Or.inl rfl⟩
      | exact ⟨_, ⟨_, rfl⟩, Or.inr rfl⟩

/-- Witness for C8: the all-success world succeeds; the both-missing world
fails with a single diagnostic and exit status 1. -/
theorem mainRun_error_discipline_witness :
    mainRun wAllOk = ⟨[], EXIT_SUCCESS, true⟩ ∧
      ((mainRun wBothMissing).exitCode = 1 ∧
        (mainRun wBothMissing).alignInvoked = false ∧
        ∃ f m, (mainRun wBothMissing).errors = [errLine f m] ∧
          (f = wBothMissing.input1 ∨ f = wBothMissing.input2)) :=
  ⟨(mainRun_error_discipline wAllOk).1 (by decide),
   (mainRun_error_discipline wBothMissing).2 (by decide)⟩

/-- C10: at most one diagnostic per run, and at every stage input 1 is
checked before input 2, the first failing check deciding the (single)
diagnostic: both-missing reports only input 1's name. -/
theorem mainRun_first_failure_wins (w : World) :
    (mainRun w).errors.length ≤ 1 ∧
    (w.exists1 = false →
      mainRun w = ⟨[errLine w.input1 noSuchFileMsg], 1, false⟩) ∧
    (w.exists1 = true → w.exists2 = false →
      mainRun w = ⟨[errLine w.input2 noSuchFileMsg], 1, false⟩) ∧
    (∀ m, w.exists1 = true → w.exists2 = true → w.parse1 = .error m →
      mainRun w = ⟨[errLine w.input1 m], 1, false⟩) ∧
    (∀ b1 m, w.exists1 = true → w.exists2 = true → w.parse1 = .ok b1 →
      w.parse2 = .error m → mainRun w = ⟨[errLine w.input2 m], 1, false⟩) ∧
    (∀ b1 b2, w.exists1 = true → w.exists2 = true → w.parse1 = .ok b1 →
      w.parse2 = .ok b2 → ¬ b1 = .elf →
      mainRun w = ⟨[errLine w.input1 invalidFileTypeMsg], 1, false⟩) ∧
    (∀ b2, w.exists1 = true → w.exists2 = true → w.parse1 = .ok .elf →
      w.parse2 = .ok b2 → ¬ b2 = .elf →
      mainRun w = ⟨[errLine w.input2 invalidFileTypeMsg], 1, false⟩) ∧
    (∀ m, w.exists1 = true → w.exists2 = true → w.parse1 = .ok .elf →
      w.parse2 = .ok .elf → w.create1 = .error m →
      mainRun w = ⟨[errLine w.input1 m], 1, false⟩) ∧
    (∀ m, w.exists1 = true → w.exists2 = true → w.parse1 = .ok .elf →
      w.parse2 = .ok .elf → w.create1 = .ok () → w.create2 = .error m →
      mainRun w = ⟨[errLine w.input2 m], 1, false⟩) ∧
    (∀ m, w.exists1 = true → w.exists2 = true → w.parse1 = .ok .elf →
      w.parse2 = .ok .elf → w.create1 = .ok () → w.create2 = .ok () →
      w.run1 = .error m → mainRun w = ⟨[errLine w.input1 m], 1, false⟩) ∧
    (∀ m, w.exists1 = true → w.exists2 = true → w.parse1 = .ok .elf →
      w.parse2 = .ok .elf → w.create1 = .ok () → w.create2 = .ok () →
      w.run1 = .ok () → w.run2 = .error m →
      mainRun w = ⟨[errLine w.input2 m], 1, false⟩) := by
  refine ⟨?_, ?_, ?_, ?_, ?_, ?_, ?_, ?_, ?_, ?_, ?_⟩
  · unfold mainRun
    repeat' split
    all_goals simp
  all_goals
    intros
    unfold mainRun
    simp [*]

/-- Witness for C10: with both inputs missing only input 1's name is
reported. -/
theorem mainRun_first_failure_wins_witness :
    mainRun wBothMissing =
      ⟨[errLine wBothMissing.input1 noSuchFileMsg], 1, false⟩ :=
  (mainRun_first_failure_wins wBothMissing).2.1 rfl

/-! ### Theorems about the Content Digest and empty inputs -/

/-- `find?` is unchanged by permutation when at most one element satisfies
the predicate. -/
theorem find?_eq_of_perm_of_unique {l l' : List α} (p : α → Bool)
    (h : l'.Perm l) (huniq : ∀ x ∈ l, ∀ y ∈ l, p x → p y → x = y) :
    l'.find? p = l.find? p := by
  cases hfind : l.find? p with
  | none =>
    rw [List.find?_eq_none] at hfind ⊢
    intro x hx
    exact hfind x (h.mem_iff.mp hx)
  | some a =>
    have ha := List.find?_some hfind
    have hmem := List.mem_of_find?_eq_some hfind
    have hsome : (l'.find? p).isSome := by
      rw [List.find?_isSome]
      exact ⟨a, h.mem_iff.mpr hmem, ha⟩
    cases hfind' : l'.find? p with
    | none => rw [hfind'] at hsome; simp at hsome
    | some b =>
      have hb := List.find?_some hfind'
      have hbmem := h.mem_iff.mp (List.mem_of_find?_eq_some hfind')
      rw [huniq b hbmem a hmem hb ha]

/-- C5: the function digest is invariant under the storage order of the
blocks — permuting `blocks` (with CFG structure, content and entry id
unchanged, block identifiers unique) leaves `funcDigest` unchanged. -/
theorem funcDigest_storage_order_invariant (f f' : Func)
    (hperm : f'.blocks.Perm f.blocks) (hentry : f'.entry = f.entry)
    (hids : (f.blocks.map BasicBlock.id).Nodup) :
    funcDigest f' = funcDigest f := by
  unfold funcDigest blockBag entryBlock
  rw [hentry]
  have hfind : f'.blocks.find? (fun b => decide (b.id = f.entry)) =
      f.blocks.find? (fun b => decide (b.id = f.entry)) := by
    refine find?_eq_of_perm_of_unique _ hperm ?_
    intro x hx y hy hpx hpy
    have hxe : x.id = f.entry := by simpa using hpx
    have hye : y.id = f.entry := by simpa using hpy
    exact List.inj_on_of_nodup_map hids hx hy (hxe.trans hye.symm)
  refine Prod.ext ?_ (Prod.ext ?_ ?_)
  · simpa using hperm.length_eq
  · simpa using congrArg (fun o => Option.map blockDigest o) hfind
  · simpa using Multiset.coe_eq_coe.mpr (hperm.map blockDigest)

/-- Witness for C5: swapping the storage order of two blocks. -/
theorem funcDigest_storage_order_invariant_witness :
    funcDigest ⟨0, some "f", 0,
        [⟨1, [⟨2, 0⟩], []⟩, ⟨0, [⟨1, 0⟩], [(.fallthrough, 1)]⟩]⟩ =
      funcDigest ⟨0, some "f", 0,
        [⟨0, [⟨1, 0⟩], [(.fallthrough, 1)]⟩, ⟨1, [⟨2, 0⟩], []⟩]⟩ :=
  funcDigest_storage_order_invariant _ _ (by decide) (by decide) (by decide)

/-- C6: the block digest is sensitive to opcode content — replacing the
opcode of any instruction of a block with a different opcode changes the
block's digest. -/
theorem blockDigest_opcode_sensitive (b : BasicBlock) (i : Nat)
    (h : i < b.insns.length) (c : Nat)
    (hc : ¬ c = (b.insns.get ⟨i, h⟩).opcode) :
    ¬ blockDigest
        { b with insns := b.insns.set i ⟨c, (b.insns.get ⟨i, h⟩).shape⟩ } =
      blockDigest b := by
  intro heq
  unfold blockDigest at heq
  simp only [List.map_set] at heq
  have hi : i < ((b.insns.map (fun i => (i.opcode, i.shape))).set i
      (c, (b.insns.get ⟨i, h⟩).shape)).length := by
    simpa using h
  have := congrArg (fun l => l[i]?) heq
  simp only [List.getElem?_set, List.getElem?_map] at this
  have hget : b.insns[i]? = some (b.insns.get ⟨i, h⟩) := by
    simp [List.getElem?_eq_getElem h]
  rw [if_pos (by simp [h])] at this
  simp [hget] at this
  rw [List.get_eq_getElem] at hc
  exact hc this.2

/-- Witness for C6: changing opcode 7 to 8 in a one-instruction block. -/
theorem blockDigest_opcode_sensitive_witness :
    ¬ blockDigest
        { (⟨0, [⟨7, 3⟩], []⟩ : BasicBlock) with
          insns := ([⟨7, 3⟩] : List Instr).set 0
            ⟨8, ((([⟨7, 3⟩] : List Instr).get ⟨0, by decide⟩)).shape⟩ } =
      blockDigest ⟨0, [⟨7, 3⟩], []⟩ :=
  blockDigest_opcode_sensitive ⟨0, [⟨7, 3⟩], []⟩ 0 (by decide) 8 (by decide)

/-- C9: a zero-sized function set is processed normally — aligning an
empty program against any program yields a normal result: no matched
pairs, no unmatched functions on the empty side, and the whole other side
reported as unmatched residue, with no failure. -/
theorem emptyProgram_processed (B : Program) :
    (alignPrograms ⟨[]⟩ B).funcPairs = [] ∧
    (alignPrograms ⟨[]⟩ B).unmatchedA = [] ∧
    (alignPrograms ⟨[]⟩ B).unmatchedB = B.funcs.map Func.id ∧
    (alignPrograms ⟨[]⟩ B).blockMaps = [] := by
  have h1 : exactStage ⟨[]⟩ B = [] := rfl
  have h2 : restA1 ⟨[]⟩ B = [] := rfl
  have h3 : nameStage ⟨[]⟩ B = [] := by
    unfold nameStage namePairs
    rw [h2]
    rfl
  have h4 : restA2 ⟨[]⟩ B = [] := by
    unfold restA2
    rw [h2]
    rfl
  have h5 : fuzzyStage ⟨[]⟩ B = [] := by
    unfold fuzzyStage fuzzyPairs
    rw [h4]
    rfl
  have h6 : allPairs ⟨[]⟩ B = [] := by
    unfold allPairs
    rw [h1, h3, h5]
    rfl
  unfold alignPrograms matchFuncs
  simp [h6]

/-- Witness for C9 shape at a concrete one-function program (no hypotheses
in C9's theorem, provided for concreteness). -/
theorem emptyProgram_processed_witness :
    (alignPrograms ⟨[]⟩ ⟨[⟨0, some "f", 0, [⟨0, [], []⟩]⟩]⟩).funcPairs = [] ∧
      (alignPrograms ⟨[]⟩ ⟨[⟨0, some "f", 0, [⟨0, [], []⟩]⟩]⟩).unmatchedB = [0] :=
  ⟨(emptyProgram_processed ⟨[⟨0, some "f", 0, [⟨0, [], []⟩]⟩]⟩).1, by
    rw [(emptyProgram_processed ⟨[⟨0, some "f", 0, [⟨0, [], []⟩]⟩]⟩).2.2.1]; rfl⟩

/-! ### Theorems about the Block Aligner entry anchor -/

/-- One commit step either keeps the matched list or appends the candidate. -/
theorem commitStep_cases (fa fb : Func) (M : List (Nat × Nat)) (c : Nat × Nat) :
    commitStep fa fb M c = M ∨ commitStep fa fb M c = M ++ [c] := by
  unfold commitStep
  repeat' split
  all_goals simp

/-- `commitNew` only appends to the matched list. -/
theorem commitNew_append (fa fb : Func) (M : List (Nat × Nat))
    (cands : List (Nat × Nat)) :
    ∃ t, commitNew fa fb M cands = M ++ t := by
  induction cands generalizing M with
  | nil => exact ⟨[], by simp [commitNew]⟩
  | cons c cs ih =>
    show ∃ t, (cs.foldl (commitStep fa fb) (commitStep fa fb M c)) = M ++ t
    obtain ⟨t, ht⟩ := ih (commitStep fa fb M c)
    rcases commitStep_cases fa fb M c with hs | hs
    · exact ⟨t, by rw [show cs.foldl (commitStep fa fb) (commitStep fa fb M c) =
        commitNew fa fb (commitStep fa fb M c) cs from rfl, ht, hs]⟩
    · refine ⟨[c] ++ t, ?_⟩
      rw [show cs.foldl (commitStep fa fb) (commitStep fa fb M c) =
        commitNew fa fb (commitStep fa fb M c) cs from rfl, ht, hs]
      simp

/-- `propagate` only appends to the matched list. -/
theorem propagate_append (fa fb : Func) (fuel : Nat) (M : List (Nat × Nat)) :
    ∃ t, propagate fa fb fuel M = M ++ t := by
  induction fuel generalizing M with
  | zero => exact ⟨[], by simp [propagate]⟩
  | succ n ih =>
    unfold propagate
    obtain ⟨t, ht⟩ := commitNew_append fa fb M ((M.map (propCandidates fa fb)).flatten)
    split
    · exact ⟨[], by simp⟩
    · obtain ⟨t', ht'⟩ := ih (commitNew fa fb M ((M.map (propCandidates fa fb)).flatten))
      exact ⟨t ++ t', by rw [ht', ht, List.append_assoc]⟩

/-- The entry pair heads the block mapping of `alignBlocks`. -/
theorem alignBlocks_entry_head (fa fb : Func) :
    ∃ rest, (alignBlocks fa fb).pairs = (fa.entry, fb.entry) :: rest := by
  unfold alignBlocks
  obtain ⟨t, ht⟩ := propagate_append fa fb (fa.blocks.length + fb.blocks.length)
    [(fa.entry, fb.entry)]
  simp only [ht, List.cons_append, List.nil_append, List.append_assoc]
  exact ⟨_, rfl⟩

/-- C4: in every matched function pair produced by a run, the two entry
block identifiers are paired with each other, and that pair is committed
first — it heads the pair's block-level mapping. -/
theorem entry_anchor (A B : Program) :
    ∀ p ∈ (alignPrograms A B).blockMaps,
      ∃ fa fb, findFunc A p.1 = some fa ∧ findFunc B p.2.1 = some fb ∧
        ∃ rest, p.2.2.pairs = (fa.entry, fb.entry) :: rest := by
  intro p hp
  unfold alignPrograms at hp
  simp only [List.mem_filterMap] at hp
  obtain ⟨q, _, hq⟩ := hp
  cases h1 : findFunc A q.1 with
  | none => rw [h1] at hq; exact absurd hq (by simp)
  | some fa =>
    cases h2 : findFunc B q.2.1 with
    | none => rw [h1, h2] at hq; exact absurd hq (by simp)
    | some fb =>
      rw [h1, h2] at hq
      simp only [Option.some.injEq] at hq
      subst hq
      exact ⟨fa, fb, h1, h2, alignBlocks_entry_head fa fb⟩

/-- A concrete two-block, one-function program used by witnesses. -/
def wProg : Program :=
  ⟨[⟨0, some "w", 0, [⟨0, [⟨1, 0⟩], [(.fallthrough, 1)]⟩, ⟨1, [⟨2, 0⟩], []⟩]⟩]⟩

/-- The function of `wProg`. -/
def wFunc : Func :=
  ⟨0, some "w", 0, [⟨0, [⟨1, 0⟩], [(.fallthrough, 1)]⟩, ⟨1, [⟨2, 0⟩], []⟩]⟩

/-- Witness for C4 at a concrete self-alignment run. -/
theorem entry_anchor_witness :
    ∃ fa fb, findFunc wProg 0 = some fa ∧ findFunc wProg 0 = some fb ∧
      ∃ rest, (alignBlocks wFunc wFunc).pairs = (fa.entry, fb.entry) :: rest :=
  entry_anchor wProg wProg (0, 0, alignBlocks wFunc wFunc) (by decide)

/-! ### Bijection invariants of the matcher -/

/-- `pickUnique` returns an element only from a singleton list. -/
theorem pickUnique_eq_some {l : List Func} {b : Func}
    (h : pickUnique l = some b) : l = [b] := by
  unfold pickUnique at h
  split at h
  · simp_all
  · exact absurd h (by simp)

/-- `pickMax` returns an element of its input list. -/
theorem pickMax_mem {key : α → Nat × Nat × Nat × Nat} {l : List α} {m : α}
    (h : pickMax key l = some m) : m ∈ l := by
  unfold pickMax at h
  suffices H : ∀ (l : List α) (acc : Option α),
      l.foldl (fun acc c =>
        match acc with
        | none => some c
        | some m => if kLt (key m) (key c) then some c else some m) acc = some m →
      acc = some m ∨ m ∈ l by
    rcases H l none h with h' | h'
    · exact absurd h' (by simp)
    · exact h'
  intro l
  induction l with
  | nil => intro acc h; exact Or.inl h
  | cons c cs ih =>
    intro acc h
    rcases ih _ h with h' | h'
    · cases acc with
      | none =>
        simp only at h'
        exact Or.inr (by simp [Option.some.injEq] at h'; simp [h'])
      | some m' =>
        simp only at h'
        split at h'
        · exact Or.inr (by simp [Option.some.injEq] at h'; simp [h'])
        · exact Or.inl h'
    · exact Or.inr (List.mem_cons_of_mem _ h')

/-- If a filter keeps exactly one element and `a` is kept, the filter is
`[a]`. -/
theorem filter_eq_singleton_of_mem {l : List α} {p : α → Bool} {a : α}
    (hlen : (l.filter p).length = 1) (ha : a ∈ l) (hpa : p a = true) :
    l.filter p = [a] := by
  have hmem : a ∈ l.filter p := List.mem_filter.mpr ⟨ha, hpa⟩
  match hf : l.filter p with
  | [] => rw [hf] at hmem; simp at hmem
  | [x] => rw [hf] at hmem; simp at hmem; rw [hmem]
  | x :: y :: t => rw [hf] at hlen; simp at hlen

/-- Projections of a `filterMap` are without duplicates when the projection
determines the source element. -/
theorem nodup_proj_filterMap {l : List α} (hl : l.Nodup)
    (F : α → Option (Nat × Nat)) (g : Nat × Nat → Nat)
    (hinj : ∀ a ∈ l, ∀ b ∈ l, ∀ p q, F a = some p → F b = some q →
      g p = g q → a = b) :
    ((l.filterMap F).map g).Nodup := by
  induction l with
  | nil => simp
  | cons a tl ih =>
    rw [List.filterMap_cons]
    have htl : ((tl.filterMap F).map g).Nodup :=
      ih (List.Nodup.of_cons hl)
        (fun x hx y hy => hinj x (List.mem_cons_of_mem _ hx)
          y (List.mem_cons_of_mem _ hy))
    cases hFa : F a with
    | none => exact htl
    | some p =>
      simp only [List.map_cons, List.nodup_cons]
      refine ⟨?_, htl⟩
      intro hmem
      obtain ⟨q, hq, hgq⟩ := List.mem_map.mp hmem
      obtain ⟨b, hb, hFb⟩ := List.mem_filterMap.mp hq
      have hab : b = a :=
        hinj b (List.mem_cons_of_mem _ hb) a (List.mem_cons_self a tl) q p hFb hFa hgq
      rw [hab] at hb
      exact (List.nodup_cons.mp hl).1 hb

/-- Shape of a successful exact-pass decision. -/
theorem exactBody_some {A B : List Func} {a : Func} {p : Nat × Nat}
    (h : exactBody A B a = some p) :
    p.1 = a.id ∧ (A.filter (fun x => funcDigest x = funcDigest a)).length = 1 ∧
      ∃ b, B.filter (fun x => funcDigest x = funcDigest a) = [b] ∧ p.2 = b.id := by
  unfold exactBody at h
  by_cases hlen : (A.filter (fun x => funcDigest x = funcDigest a)).length = 1
  · rw [if_pos hlen] at h
    cases hp : pickUnique (B.filter (fun x => funcDigest x = funcDigest a)) with
    | none => rw [hp] at h; exact absurd h (by simp)
    | some b =>
      rw [hp] at h
      dsimp only at h
      by_cases hes : edgeShape b = edgeShape a
      · rw [if_pos hes] at h
        simp only [Option.some.injEq] at h
        subst h
        exact ⟨rfl, hlen, b, pickUnique_eq_some hp, rfl⟩
      · rw [if_neg hes] at h; exact absurd h (by simp)
  · rw [if_neg hlen] at h; exact absurd h (by simp)

/-- Shape of a successful name-pass decision. -/
theorem nameBody_some {A B : List Func} {a : Func} {p : Nat × Nat}
    (h : nameBody A B a = some p) :
    p.1 = a.id ∧ ∃ n, a.name = some n ∧
      (A.filter (fun x => x.name = some n)).length = 1 ∧
      ∃ b, B.filter (fun x => x.name = some n) = [b] ∧ p.2 = b.id := by
  unfold nameBody at h
  cases hn : a.name with
  | none => rw [hn] at h; exact absurd h (by simp)
  | some n =>
    rw [hn] at h
    dsimp only at h
    by_cases hlen : (A.filter (fun x => x.name = some n)).length = 1
    · rw [if_pos hlen] at h
      cases hp : pickUnique (B.filter (fun x => x.name = some n)) with
      | none => rw [hp] at h; exact absurd h (by simp)
      | some b =>
        rw [hp] at h
        dsimp only at h
        simp only [Option.some.injEq] at h
        subst h
        exact ⟨rfl, n, rfl, hlen, b, pickUnique_eq_some hp, rfl⟩
    · rw [if_neg hlen] at h; exact absurd h (by simp)

/-- First projections of a pass whose decisions return the examined
identifier are without duplicates. -/
theorem pass_fst_nodup {l : List Func} (hl : (l.map Func.id).Nodup)
    {F : Func → Option (Nat × Nat)}
    (hfst : ∀ a p, F a = some p → p.1 = a.id) :
    ((l.filterMap F).map Prod.fst).Nodup := by
  refine nodup_proj_filterMap (hl.of_map) F Prod.fst ?_
  intro a ha b hb p q hFa hFb hg
  have : a.id = b.id := by
    rw [← hfst a p hFa, ← hfst b q hFb]; exact hg
  exact List.inj_on_of_nodup_map hl ha hb this

/-- First projections of a pass land in the examined side's identifiers. -/
theorem pass_fst_subset {l : List Func}
    {F : Func → Option (Nat × Nat)}
    (hfst : ∀ a p, F a = some p → p.1 = a.id) :
    ∀ x ∈ (l.filterMap F).map Prod.fst, x ∈ l.map Func.id := by
  intro x hx
  obtain ⟨q, hq, hgq⟩ := List.mem_map.mp hx
  obtain ⟨a, ha, hFa⟩ := List.mem_filterMap.mp hq
  exact List.mem_map.mpr ⟨a, ha, by rw [← hgq, hfst a q hFa]⟩

/-- A member of a singleton-valued filter satisfies the predicate. -/
theorem of_filter_singleton {l : List α} {p : α → Bool} {b : α}
    (h : l.filter p = [b]) : b ∈ l ∧ p b = true := by
  have : b ∈ l.filter p := by rw [h]; exact List.mem_cons_self b []
  exact ⟨(List.mem_filter.mp this).1, (List.mem_filter.mp this).2⟩

/-- Second projections of the exact pass are without duplicates. -/
theorem exactPairs_snd_nodup {A B : List Func}
    (hA : (A.map Func.id).Nodup) (hB : (B.map Func.id).Nodup) :
    ((exactPairs A B).map Prod.snd).Nodup := by
  refine nodup_proj_filterMap (hA.of_map) (exactBody A B) Prod.snd ?_
  intro a ha c hc p q hFa hFc hg
  obtain ⟨-, hlenA, b1, hb1, hp2⟩ := exactBody_some hFa
  obtain ⟨-, -, b2, hb2, hq2⟩ := exactBody_some hFc
  obtain ⟨hb1B, hb1d⟩ := of_filter_singleton hb1
  obtain ⟨hb2B, hb2d⟩ := of_filter_singleton hb2
  have hbeq : b1 = b2 := by
    refine List.inj_on_of_nodup_map hB hb1B hb2B ?_
    rw [← hp2, ← hq2]; exact hg
  have hd1 : funcDigest b1 = funcDigest a := by simpa using hb1d
  have hd2 : funcDigest b2 = funcDigest c := by simpa using hb2d
  have hdac : funcDigest c = funcDigest a := by rw [← hd2, ← hbeq, hd1]
  have hfa : A.filter (fun x => funcDigest x = funcDigest a) = [a] :=
    filter_eq_singleton_of_mem hlenA ha (by simp)
  have : c ∈ A.filter (fun x => funcDigest x = funcDigest a) :=
    List.mem_filter.mpr ⟨hc, by simpa using hdac⟩
  rw [hfa] at this
  exact (List.mem_singleton.mp this).symm

/-- Second projections of the name pass are without duplicates. -/
theorem namePairs_snd_nodup {A B : List Func}
    (hA : (A.map Func.id).Nodup) (hB : (B.map Func.id).Nodup) :
    ((namePairs A B).map Prod.snd).Nodup := by
  refine nodup_proj_filterMap (hA.of_map) (nameBody A B) Prod.snd ?_
  intro a ha c hc p q hFa hFc hg
  obtain ⟨-, n1, hn1, hlenA, b1, hb1, hp2⟩ := nameBody_some hFa
  obtain ⟨-, n2, hn2, -, b2, hb2, hq2⟩ := nameBody_some hFc
  obtain ⟨hb1B, hb1d⟩ := of_filter_singleton hb1
  obtain ⟨hb2B, hb2d⟩ := of_filter_singleton hb2
  have hbeq : b1 = b2 := by
    refine List.inj_on_of_nodup_map hB hb1B hb2B ?_
    rw [← hp2, ← hq2]; exact hg
  have hm1 : b1.name = some n1 := by simpa using hb1d
  have hm2 : b2.name = some n2 := by simpa using hb2d
  have hneq : n1 = n2 := by
    have := hm1.symm.trans (hbeq ▸ hm2)
    simpa using this
  have hfa : A.filter (fun x => x.name = some n1) = [a] :=
    filter_eq_singleton_of_mem hlenA ha (by simp [hn1])
  have : c ∈ A.filter (fun x => x.name = some n1) :=
    List.mem_filter.mpr ⟨hc, by simp [hn2, hneq]⟩
  rw [hfa] at this
  exact (List.mem_singleton.mp this).symm

/-- Second projections of the exact pass land in B's identifiers. -/
theorem exactPairs_snd_subset {A B : List Func} :
    ∀ x ∈ (exactPairs A B).map Prod.snd, x ∈ B.map Func.id := by
  intro x hx
  obtain ⟨q, hq, hgq⟩ := List.mem_map.mp hx
  obtain ⟨a, _, hFa⟩ := List.mem_filterMap.mp hq
  obtain ⟨-, -, b, hb, hp2⟩ := exactBody_some hFa
  exact List.mem_map.mpr ⟨b, (of_filter_singleton hb).1, by rw [← hgq, hp2]⟩

/-- Second projections of the name pass land in B's identifiers. -/
theorem namePairs_snd_subset {A B : List Func} :
    ∀ x ∈ (namePairs A B).map Prod.snd, x ∈ B.map Func.id := by
  intro x hx
  obtain ⟨q, hq, hgq⟩ := List.mem_map.mp hx
  obtain ⟨a, _, hFa⟩ := List.mem_filterMap.mp hq
  obtain ⟨-, n, hn, -, b, hb, hp2⟩ := nameBody_some hFa
  exact List.mem_map.mpr ⟨b, (of_filter_singleton hb).1, by rw [← hgq, hp2]⟩

/-- First projections of the greedy assignment: without duplicates, and
drawn from side A's identifiers. -/
theorem greedy_fst {idOf : α → Nat} {key : α → α → Nat × Nat × Nat × Nat}
    {ok : α → α → Bool} :
    ∀ (fuel : Nat) (remA remB : List α),
      ((greedy idOf key ok fuel remA remB).map Prod.fst).Nodup ∧
      ∀ x ∈ (greedy idOf key ok fuel remA remB).map Prod.fst,
        x ∈ remA.map idOf := by
  intro fuel
  induction fuel with
  | zero => intro remA remB; simp [greedy]
  | succ n ih =>
    intro remA remB
    cases hp : pickMax (fun p => key p.1 p.2)
        ((remA.product remB).filter (fun p => ok p.1 p.2)) with
    | none => simp [greedy, hp]
    | some ab =>
      obtain ⟨a, b⟩ := ab
      have hmem := pickMax_mem hp
      have haA : a ∈ remA := by
        have := (List.mem_filter.mp hmem).1
        exact ((List.mem_product).mp this).1
      obtain ⟨ihn, ihs⟩ := ih (remA.filter (fun x => ¬ idOf x = idOf a))
        (remB.filter (fun x => ¬ idOf x = idOf b))
      constructor
      · simp only [greedy, hp, List.map_cons, List.nodup_cons]
        refine ⟨?_, ihn⟩
        intro hcon
        obtain ⟨y, hy, hyid⟩ := List.mem_map.mp (ihs _ hcon)
        have : ¬ idOf y = idOf a := by simpa using (List.mem_filter.mp hy).2
        exact this hyid
      · simp only [greedy, hp, List.map_cons]
        intro x hx
        rcases List.mem_cons.mp hx with hx | hx
        · exact List.mem_map.mpr ⟨a, haA, hx.symm⟩
        · obtain ⟨y, hy, hyid⟩ := List.mem_map.mp (ihs _ hx)
          exact List.mem_map.mpr ⟨y, (List.mem_filter.mp hy).1, hyid⟩

/-- Second projections of the greedy assignment: without duplicates, and
drawn from side B's identifiers. -/
theorem greedy_snd {idOf : α → Nat} {key : α → α → Nat × Nat × Nat × Nat}
    {ok : α → α → Bool} :
    ∀ (fuel : Nat) (remA remB : List α),
      ((greedy idOf key ok fuel remA remB).map Prod.snd).Nodup ∧
      ∀ x ∈ (greedy idOf key ok fuel remA remB).map Prod.snd,
        x ∈ remB.map idOf := by
  intro fuel
  induction fuel with
  | zero => intro remA remB; simp [greedy]
  | succ n ih =>
    intro remA remB
    cases hp : pickMax (fun p => key p.1 p.2)
        ((remA.product remB).filter (fun p => ok p.1 p.2)) with
    | none => simp [greedy, hp]
    | some ab =>
      obtain ⟨a, b⟩ := ab
      have hmem := pickMax_mem hp
      have hbB : b ∈ remB := by
        have := (List.mem_filter.mp hmem).1
        exact ((List.mem_product).mp this).2
      obtain ⟨ihn, ihs⟩ := ih (remA.filter (fun x => ¬ idOf x = idOf a))
        (remB.filter (fun x => ¬ idOf x = idOf b))
      constructor
      · simp only [greedy, hp, List.map_cons, List.nodup_cons]
        refine ⟨?_, ihn⟩
        intro hcon
        obtain ⟨y, hy, hyid⟩ := List.mem_map.mp (ihs _ hcon)
        have : ¬ idOf y = idOf b := by simpa using (List.mem_filter.mp hy).2
        exact this hyid
      · simp only [greedy, hp, List.map_cons]
        intro x hx
        rcases List.mem_cons.mp hx with hx | hx
        · exact List.mem_map.mpr ⟨b, hbB, hx.symm⟩
        · obtain ⟨y, hy, hyid⟩ := List.mem_map.mp (ihs _ hx)
          exact List.mem_map.mpr ⟨y, (List.mem_filter.mp hy).1, hyid⟩

/-- One commit step preserves absence of duplicates in both projections. -/
theorem commitStep_nodup (fa fb : Func) (M : List (Nat × Nat)) (c : Nat × Nat)
    (h1 : (M.map Prod.fst).Nodup) (h2 : (M.map Prod.snd).Nodup) :
    (((commitStep fa fb M c).map Prod.fst).Nodup ∧
      ((commitStep fa fb M c).map Prod.snd).Nodup) := by
  unfold commitStep
  by_cases hc : M.any (fun p => p.1 = c.1) ∨ M.any (fun p => p.2 = c.2)
  · rw [if_pos hc]; exact ⟨h1, h2⟩
  · rw [if_neg hc]
    push_neg at hc
    obtain ⟨hc1, hc2⟩ := hc
    cases findBlock fa c.1 with
    | none => exact ⟨h1, h2⟩
    | some x =>
      cases findBlock fb c.2 with
      | none => exact ⟨h1, h2⟩
      | some y =>
        dsimp only
        by_cases hd : digestClose x y
        · rw [if_pos hd]
          constructor
          · rw [List.map_append, List.nodup_append]
            refine ⟨h1, by simp, ?_⟩
            intro u hu hv
            simp only [List.map_cons, List.map_nil, List.mem_singleton] at hv
            subst hv
            obtain ⟨p, hpM, hp1⟩ := List.mem_map.mp hu
            have : ¬ (M.any (fun p => p.1 = c.1) = true) := by simpa using hc1
            rw [List.any_eq_true] at this
            exact this ⟨p, hpM, by simpa using hp1⟩
          · rw [List.map_append, List.nodup_append]
            refine ⟨h2, by simp, ?_⟩
            intro u hu hv
            simp only [List.map_cons, List.map_nil, List.mem_singleton] at hv
            subst hv
            obtain ⟨p, hpM, hp2⟩ := List.mem_map.mp hu
            have : ¬ (M.any (fun p => p.2 = c.2) = true) := by simpa using hc2
            rw [List.any_eq_true] at this
            exact this ⟨p, hpM, by simpa using hp2⟩
        · rw [if_neg hd]; exact ⟨h1, h2⟩

/-- `commitNew` preserves absence of duplicates in both projections. -/
theorem commitNew_nodup (fa fb : Func) (cands : List (Nat × Nat)) :
    ∀ (M : List (Nat × Nat)), (M.map Prod.fst).Nodup → (M.map Prod.snd).Nodup →
      (((commitNew fa fb M cands).map Prod.fst).Nodup ∧
        ((commitNew fa fb M cands).map Prod.snd).Nodup) := by
  induction cands with
  | nil => intro M h1 h2; exact ⟨h1, h2⟩
  | cons c cs ih =>
    intro M h1 h2
    obtain ⟨h1', h2'⟩ := commitStep_nodup fa fb M c h1 h2
    exact ih (commitStep fa fb M c) h1' h2'

/-- `propagate` preserves absence of duplicates in both projections. -/
theorem propagate_nodup (fa fb : Func) (fuel : Nat) :
    ∀ (M : List (Nat × Nat)), (M.map Prod.fst).Nodup → (M.map Prod.snd).Nodup →
      (((propagate fa fb fuel M).map Prod.fst).Nodup ∧
        ((propagate fa fb fuel M).map Prod.snd).Nodup) := by
  induction fuel with
  | zero => intro M h1 h2; exact ⟨h1, h2⟩
  | succ n ih =>
    intro M h1 h2
    unfold propagate
    split
    · exact ⟨h1, h2⟩
    · obtain ⟨h1', h2'⟩ := commitNew_nodup fa fb
        ((M.map (propCandidates fa fb)).flatten) M h1 h2
      exact ih _ h1' h2'

/-- The block mapping of `alignBlocks` is a partial bijection: no block
identifier occurs twice on either side. -/
theorem alignBlocks_nodup (fa fb : Func) :
    ((alignBlocks fa fb).pairs.map Prod.fst).Nodup ∧
    ((alignBlocks fa fb).pairs.map Prod.snd).Nodup := by
  unfold alignBlocks
  simp only
  obtain ⟨hM1f, hM1s⟩ := propagate_nodup fa fb
    (fa.blocks.length + fb.blocks.length) [(fa.entry, fb.entry)]
    (by simp) (by simp)
  constructor
  · rw [List.map_append, List.nodup_append]
    refine ⟨hM1f, (greedy_fst _ _ _).1, ?_⟩
    intro u hu hv
    obtain ⟨y, hy, hyid⟩ := List.mem_map.mp ((greedy_fst _ _ _).2 _ hv)
    have hpred := (List.mem_filter.mp hy).2
    simp only [decide_not, Bool.not_eq_eq_eq_not, Bool.not_true,
      decide_eq_false_iff_not] at hpred
    rw [List.any_eq_true] at hpred
    obtain ⟨p, hpM, hp1⟩ := List.mem_map.mp hu
    exact hpred ⟨p, hpM, by simp [hp1, hyid]⟩
  · rw [List.map_append, List.nodup_append]
    refine ⟨hM1s, (greedy_snd _ _ _).1, ?_⟩
    intro u hu hv
    obtain ⟨y, hy, hyid⟩ := List.mem_map.mp ((greedy_snd _ _ _).2 _ hv)
    have hpred := (List.mem_filter.mp hy).2
    simp only [decide_not, Bool.not_eq_eq_eq_not, Bool.not_true,
      decide_eq_false_iff_not] at hpred
    rw [List.any_eq_true] at hpred
    obtain ⟨p, hpM, hp2⟩ := List.mem_map.mp hu
    exact hpred ⟨p, hpM, by simp [hp2, hyid]⟩

/-- Exact-pass decisions return the examined function's identifier first. -/
theorem exactBody_fst (A B : List Func) :
    ∀ a p, exactBody A B a = some p → p.1 = a.id :=
  fun _ _ h => (exactBody_some h).1

/-- Name-pass decisions return the examined function's identifier first. -/
theorem nameBody_fst (A B : List Func) :
    ∀ a p, nameBody A B a = some p → p.1 = a.id :=
  fun _ _ h => (nameBody_some h).1

/-- Membership in a pass's first projections exhibits a source function. -/
theorem mem_fst_filterMap {l : List Func} {F : Func → Option (Nat × Nat)}
    (hfst : ∀ a p, F a = some p → p.1 = a.id) {x : Nat}
    (hx : x ∈ (l.filterMap F).map Prod.fst) : ∃ a ∈ l, x = a.id := by
  obtain ⟨q, hq, hgq⟩ := List.mem_map.mp hx
  obtain ⟨a, ha, hFa⟩ := List.mem_filterMap.mp hq
  exact ⟨a, ha, by rw [← hgq, hfst a q hFa]⟩

/-- C3 and map bookkeeping: every completed run yields a partial bijection —
no function identifier of either side occurs in two pairs, and within every
matched pair's block mapping no block identifier occurs in two pairs. -/
theorem corrMap_one_pair_per_identifier (A B : Program)
    (hA : (A.funcs.map Func.id).Nodup) (hB : (B.funcs.map Func.id).Nodup) :
    (((alignPrograms A B).funcPairs.map (fun p => p.1)).Nodup ∧
      ((alignPrograms A B).funcPairs.map (fun p => p.2.1)).Nodup) ∧
    ∀ q ∈ (alignPrograms A B).blockMaps,
      (q.2.2.pairs.map Prod.fst).Nodup ∧ (q.2.2.pairs.map Prod.snd).Nodup := by
  have hA1 : ((restA1 A B).map Func.id).Nodup :=
    ((List.filter_sublist _).map Func.id).nodup hA
  have hB1 : ((restB1 A B).map Func.id).Nodup :=
    ((List.filter_sublist _).map Func.id).nodup hB
  have hfzA : ∀ x ∈ (fuzzyStage A B).map Prod.fst, x ∈ (restA2 A B).map Func.id :=
    (greedy_fst _ _ _).2
  have hfzB : ∀ x ∈ (fuzzyStage A B).map Prod.snd, x ∈ (restB2 A B).map Func.id :=
    (greedy_snd _ _ _).2
  have hmap1 : (alignPrograms A B).funcPairs.map (fun p => p.1) =
      (exactStage A B).map Prod.fst ++ (nameStage A B).map Prod.fst ++
        (fuzzyStage A B).map Prod.fst := by
    show (allPairs A B).map (fun p => p.1) = _
    unfold allPairs
    simp only [List.map_append, List.map_map]
    rfl
  have hmap2 : (alignPrograms A B).funcPairs.map (fun p => p.2.1) =
      (exactStage A B).map Prod.snd ++ (nameStage A B).map Prod.snd ++
        (fuzzyStage A B).map Prod.snd := by
    show (allPairs A B).map (fun p => p.2.1) = _
    unfold allPairs
    simp only [List.map_append, List.map_map]
    rfl
  refine ⟨⟨?_, ?_⟩, ?_⟩
  · rw [hmap1, List.nodup_append, List.nodup_append]
    refine ⟨⟨pass_fst_nodup hA (exactBody_fst _ _),
      pass_fst_nodup hA1 (nameBody_fst _ _), ?_⟩,
      (greedy_fst _ _ _).1, ?_⟩
    · intro x hxe hxn
      obtain ⟨a, ha, hxa⟩ := mem_fst_filterMap (nameBody_fst _ _) hxn
      have hpred := (List.mem_filter.mp ha).2
      simp only [decide_not, Bool.not_eq_eq_eq_not, Bool.not_true,
        decide_eq_false_iff_not] at hpred
      rw [List.any_eq_true] at hpred
      obtain ⟨q, hq, hq1⟩ := List.mem_map.mp hxe
      exact hpred ⟨q, hq, by simp [hq1, hxa]⟩
    · intro x hx hxz
      obtain ⟨y, hy, hyid⟩ := List.mem_map.mp (hfzA _ hxz)
      have hpred2 := (List.mem_filter.mp hy).2
      simp only [decide_not, Bool.not_eq_eq_eq_not, Bool.not_true,
        decide_eq_false_iff_not] at hpred2
      rw [List.any_eq_true] at hpred2
      have hy1 : y ∈ restA1 A B := (List.mem_filter.mp hy).1
      have hpred1 := (List.mem_filter.mp hy1).2
      simp only [decide_not, Bool.not_eq_eq_eq_not, Bool.not_true,
        decide_eq_false_iff_not] at hpred1
      rw [List.any_eq_true] at hpred1
      rcases List.mem_append.mp hx with hxe | hxn
      · obtain ⟨q, hq, hq1⟩ := List.mem_map.mp hxe
        exact hpred1 ⟨q, hq, by simp [hq1, hyid]⟩
      · obtain ⟨q, hq, hq1⟩ := List.mem_map.mp hxn
        exact hpred2 ⟨q, hq, by simp [hq1, hyid]⟩
  · rw [hmap2, List.nodup_append, List.nodup_append]
    refine ⟨⟨exactPairs_snd_nodup hA hB,
      namePairs_snd_nodup hA1 hB1, ?_⟩,
      (greedy_snd _ _ _).1, ?_⟩
    · intro x hxe hxn
      obtain ⟨q, hq, hgq⟩ := List.mem_map.mp hxn
      obtain ⟨a, ha, hFa⟩ := List.mem_filterMap.mp hq
      obtain ⟨-, n, hn, -, b, hbf, hp2⟩ := nameBody_some hFa
      have hbB1 : b ∈ restB1 A B := (of_filter_singleton hbf).1
      have hpred := (List.mem_filter.mp hbB1).2
      simp only [decide_not, Bool.not_eq_eq_eq_not, Bool.not_true,
        decide_eq_false_iff_not] at hpred
      rw [List.any_eq_true] at hpred
      obtain ⟨q', hq', hq1'⟩ := List.mem_map.mp hxe
      exact hpred ⟨q', hq', by simp [hq1', ← hgq, hp2]⟩
    · intro x hx hxz
      obtain ⟨y, hy, hyid⟩ := List.mem_map.mp (hfzB _ hxz)
      have hpred2 := (List.mem_filter.mp hy).2
      simp only [decide_not, Bool.not_eq_eq_eq_not, Bool.not_true,
        decide_eq_false_iff_not] at hpred2
      rw [List.any_eq_true] at hpred2
      have hy1 : y ∈ restB1 A B := (List.mem_filter.mp hy).1
      have hpred1 := (List.mem_filter.mp hy1).2
      simp only [decide_not, Bool.not_eq_eq_eq_not, Bool.not_true,
        decide_eq_false_iff_not] at hpred1
      rw [List.any_eq_true] at hpred1
      rcases List.mem_append.mp hx with hxe | hxn
      · obtain ⟨q, hq, hq1⟩ := List.mem_map.mp hxe
        exact hpred1 ⟨q, hq, by simp [hq1, hyid]⟩
      · obtain ⟨q, hq, hq1⟩ := List.mem_map.mp hxn
        exact hpred2 ⟨q, hq, by simp [hq1, hyid]⟩
  · intro q hq
    unfold alignPrograms at hq
    simp only [List.mem_filterMap] at hq
    obtain ⟨p, -, hp⟩ := hq
    cases h1 : findFunc A p.1 with
    | none => rw [h1] at hp; exact absurd hp (by simp)
    | some fa =>
      cases h2 : findFunc B p.2.1 with
      | none => rw [h1, h2] at hp; exact absurd hp (by simp)
      | some fb =>
        rw [h1, h2] at hp
        simp only [Option.some.injEq] at hp
        subst hp
        exact alignBlocks_nodup fa fb

/-- Witness for C3 at a concrete two-function program. -/
theorem corrMap_one_pair_per_identifier_witness :
    (((alignPrograms wProg wProg).funcPairs.map (fun p => p.1)).Nodup ∧
      ((alignPrograms wProg wProg).funcPairs.map (fun p => p.2.1)).Nodup) ∧
    ∀ q ∈ (alignPrograms wProg wProg).blockMaps,
      (q.2.2.pairs.map Prod.fst).Nodup ∧ (q.2.2.pairs.map Prod.snd).Nodup :=
  corrMap_one_pair_per_identifier wProg wProg (by decide) (by decide)

/-! ### Self-alignment -/

/-- A `filterMap` whose decision succeeds on every member is a `map`. -/
theorem filterMap_eq_map_of_some {l : List α} {F : α → Option β} {g : α → β}
    (h : ∀ a ∈ l, F a = some (g a)) : l.filterMap F = l.map g := by
  induction l with
  | nil => rfl
  | cons x tl ih =>
    rw [List.filterMap_cons, h x (List.mem_cons_self x tl), List.map_cons,
      ih (fun a ha => h a (List.mem_cons_of_mem _ ha))]

/-- When `f` is injective on `l` (images without duplicates), the class of
`a ∈ l` under `f` is the singleton `[a]`. -/
theorem filter_eq_self_singleton {l : List α} {f : α → β} [DecidableEq β]
    (hD : (l.map f).Nodup) {a : α} (ha : a ∈ l) :
    l.filter (fun x => f x = f a) = [a] := by
  induction l with
  | nil => cases ha
  | cons x tl ih =>
    rw [List.filter_cons]
    rcases List.mem_cons.mp ha with rfl | hmem
    · rw [if_pos (by simp)]
      have hno : tl.filter (fun x => decide (f x = f a)) = [] := by
        rw [List.filter_eq_nil_iff]
        intro y hy hEq
        exact (List.nodup_cons.mp hD).1
          (List.mem_map.mpr ⟨y, hy, by simpa using hEq⟩)
      rw [hno]
    · have hfxa : ¬ (f x = f a) := by
        intro hEq
        exact (List.nodup_cons.mp hD).1 (List.mem_map.mpr ⟨a, hmem, hEq.symm⟩)
      rw [if_neg (by simpa using hfxa)]
      exact ih (List.nodup_cons.mp hD).2 hmem

/-- Removing the unique element with `a`'s identifier splits the image
multiset into `f a` and the filtered rest. -/
theorem map_cons_filter_ne {l : List α} {idOf : α → Nat}
    (h : (l.map idOf).Nodup) {a : α} (ha : a ∈ l) (f : α → β) :
    (l.map f : Multiset β) =
      f a ::ₘ ((l.filter (fun x => ¬ idOf x = idOf a)).map f : Multiset β) := by
  induction l with
  | nil => cases ha
  | cons x tl ih =>
    rcases List.mem_cons.mp ha with rfl | hmem
    · rw [List.filter_cons, if_neg (by simp)]
      have hall : tl.filter (fun x => decide (¬ idOf x = idOf a)) = tl := by
        rw [List.filter_eq_self]
        intro y hy
        simp only [decide_eq_true_eq]
        intro hEq
        exact (List.nodup_cons.mp h).1 (List.mem_map.mpr ⟨y, hy, hEq⟩)
      rw [hall]
      simp
    · have hne : ¬ idOf x = idOf a := by
        intro hEq
        exact (List.nodup_cons.mp h).1 (List.mem_map.mpr ⟨a, hmem, hEq.symm⟩)
      rw [List.filter_cons, if_pos (by simpa using hne)]
      have := ih (List.nodup_cons.mp h).2 hmem
      simp only [List.map_cons]
      rw [show ((f x :: List.map f tl : List β) : Multiset β) =
        f x ::ₘ (List.map f tl : Multiset β) from rfl]
      rw [this]
      rw [show ((f x :: List.map f (tl.filter fun x => decide (¬ idOf x = idOf a)) :
        List β) : Multiset β) =
        f x ::ₘ (List.map f (tl.filter fun x => decide (¬ idOf x = idOf a)) :
          Multiset β) from rfl]
      exact Multiset.cons_swap _ _ _
/-- Members of a list zipped with itself are diagonal. -/
theorem zip_self_diag {l : List α} {c : α × α} (hc : c ∈ l.zip l) :
    c.1 = c.2 := by
  induction l with
  | nil => cases hc
  | cons x tl ih =>
    rcases List.mem_cons.mp hc with rfl | hmem
    · rfl
    · exact ih hmem

/-- `pickMax` returns `none` exactly on the empty list. -/
theorem pickMax_eq_none_iff {key : α → Nat × Nat × Nat × Nat} {l : List α} :
    pickMax key l = none ↔ l = [] := by
  constructor
  · intro h
    cases l with
    | nil => rfl
    | cons x tl =>
      exfalso
      have hsome : ∀ (cs : List α) (m : α),
          (cs.foldl (fun acc c =>
            match acc with
            | none => some c
            | some m => if kLt (key m) (key c) then some c else some m)
            (some m)).isSome := by
        intro cs
        induction cs with
        | nil => intro m; rfl
        | cons c cs ih =>
          intro m
          simp only [List.foldl_cons]
          split
          · exact ih _
          · exact ih _
      unfold pickMax at h
      rw [List.foldl_cons] at h
      have := hsome tl x
      rw [h] at this
      simp at this
  · intro h; subst h; rfl

/-- Eligible residual block pairs have equal digests. -/
theorem blockOk_digest_eq {x y : BasicBlock} (h : blockOk x y = true) :
    blockDigest x = blockDigest y := by
  unfold blockOk blockScore blockFloor at h
  by_cases hd : blockDigest x = blockDigest y
  · exact hd
  · exfalso
    rw [if_neg hd] at h
    by_cases hs : blockSucc x = blockSucc y
    · rw [if_pos hs] at h; simp at h
    · rw [if_neg hs] at h; simp at h

/-- Identical residual blocks are always eligible. -/
theorem blockOk_of_digest_eq {x y : BasicBlock}
    (h : blockDigest x = blockDigest y) : blockOk x y = true := by
  unfold blockOk blockScore blockFloor
  rw [if_pos h]
  simp

/-- Under pairwise-distinct digests, the exact pass matches each function of
`A` with itself when `A` is aligned against itself. -/
theorem exactBody_self {A : Program}
    (hD : (A.funcs.map funcDigest).Nodup) {a : Func} (ha : a ∈ A.funcs) :
    exactBody A.funcs A.funcs a = some (a.id, a.id) := by
  unfold exactBody
  rw [filter_eq_self_singleton hD ha]
  simp [pickUnique]

/-- Under pairwise-distinct digests, the exact stage of `align(A, A)` is
the diagonal. -/
theorem exactStage_self {A : Program}
    (hD : (A.funcs.map funcDigest).Nodup) :
    exactStage A A = A.funcs.map (fun a => (a.id, a.id)) := by
  unfold exactStage exactPairs
  exact filterMap_eq_map_of_some (fun a ha => exactBody_self hD ha)

/-- Under pairwise-distinct digests, nothing of side A remains after the
exact stage of `align(A, A)`. -/
theorem restA1_self {A : Program}
    (hD : (A.funcs.map funcDigest).Nodup) : restA1 A A = [] := by
  unfold restA1
  rw [List.filter_eq_nil_iff]
  intro a ha
  rw [exactStage_self hD]
  simp only [decide_not, Bool.not_eq_eq_eq_not, Bool.not_true,
    decide_eq_false_iff_not, Decidable.not_not, List.any_eq_true]
  exact ⟨(a.id, a.id), List.mem_map.mpr ⟨a, ha, rfl⟩, by simp⟩

/-- Under pairwise-distinct digests, nothing of side B remains after the
exact stage of `align(A, A)`. -/
theorem restB1_self {A : Program}
    (hD : (A.funcs.map funcDigest).Nodup) : restB1 A A = [] := by
  unfold restB1
  rw [List.filter_eq_nil_iff]
  intro a ha
  rw [exactStage_self hD]
  simp only [decide_not, Bool.not_eq_eq_eq_not, Bool.not_true,
    decide_eq_false_iff_not, Decidable.not_not, List.any_eq_true]
  exact ⟨(a.id, a.id), List.mem_map.mpr ⟨a, ha, rfl⟩, by simp⟩

/-- Under pairwise-distinct digests, all pairs of `align(A, A)` are the
diagonal at confidence `exact`. -/
theorem allPairs_self {A : Program}
    (hD : (A.funcs.map funcDigest).Nodup) :
    allPairs A A = A.funcs.map (fun a => (a.id, a.id, Confidence.exact)) := by
  unfold allPairs
  have hn : nameStage A A = [] := by
    unfold nameStage namePairs
    rw [restA1_self hD]
    rfl
  have hz : fuzzyStage A A = [] := by
    unfold fuzzyStage fuzzyPairs
    have h2 : restA2 A A = [] := by
      unfold restA2
      rw [restA1_self hD]
      rfl
    rw [h2]
    rfl
  rw [hn, hz, exactStage_self hD]
  simp [List.map_map]

/-- Successor candidates derived from a diagonal pair are diagonal when a
function is aligned with itself. -/
theorem propCandidates_diag (f : Func) {p : Nat × Nat} (hp : p.1 = p.2) :
    ∀ c ∈ propCandidates f f p, c.1 = c.2 := by
  intro c hc
  unfold propCandidates at hc
  rw [← hp] at hc
  cases hfind : findBlock f p.1 with
  | none => rw [hfind] at hc; simp at hc
  | some x =>
    rw [hfind] at hc
    dsimp only at hc
    rw [List.mem_flatten] at hc
    obtain ⟨l, hl, hcl⟩ := hc
    rw [List.mem_map] at hl
    obtain ⟨k, -, hk⟩ := hl
    subst hk
    exact zip_self_diag hcl

/-- A commit step preserves diagonality of the matched list. -/
theorem commitStep_diag (f : Func) {M : List (Nat × Nat)} {c : Nat × Nat}
    (hM : ∀ q ∈ M, q.1 = q.2) (hc : c.1 = c.2) :
    ∀ q ∈ commitStep f f M c, q.1 = q.2 := by
  intro q hq
  rcases commitStep_cases f f M c with h | h
  · rw [h] at hq; exact hM q hq
  · rw [h] at hq
    rcases List.mem_append.mp hq with hq | hq
    · exact hM q hq
    · rw [List.mem_singleton.mp hq]; exact hc

/-- `commitNew` preserves diagonality when all candidates are diagonal. -/
theorem commitNew_diag (f : Func) (cands : List (Nat × Nat)) :
    ∀ (M : List (Nat × Nat)), (∀ q ∈ M, q.1 = q.2) →
      (∀ c ∈ cands, c.1 = c.2) →
      ∀ q ∈ commitNew f f M cands, q.1 = q.2 := by
  induction cands with
  | nil => intro M hM _ q hq; exact hM q hq
  | cons c cs ih =>
    intro M hM hcand q hq
    exact ih (commitStep f f M c)
      (commitStep_diag f hM (hcand c (List.mem_cons_self c cs)))
      (fun d hd => hcand d (List.mem_cons_of_mem _ hd)) q hq

/-- Propagation from a diagonal matched list stays diagonal when a
function is aligned with itself. -/
theorem propagate_diag (f : Func) (fuel : Nat) :
    ∀ (M : List (Nat × Nat)), (∀ q ∈ M, q.1 = q.2) →
      ∀ q ∈ propagate f f fuel M, q.1 = q.2 := by
  induction fuel with
  | zero => intro M hM q hq; exact hM q hq
  | succ n ih =>
    intro M hM
    unfold propagate
    split
    · exact hM
    · refine ih _ ?_
      refine commitNew_diag f _ M hM ?_
      intro c hc
      rw [List.mem_flatten] at hc
      obtain ⟨l, hl, hcl⟩ := hc
      rw [List.mem_map] at hl
      obtain ⟨p, hpM, hpl⟩ := hl
      subst hpl
      exact propCandidates_diag f (hM p hpM) c hcl

/-- When the two residual sides carry the same multiset of block digests,
the residual greedy pass matches every block on both sides. -/
theorem greedy_total :
    ∀ (fuel : Nat) (remA remB : List BasicBlock),
      remA.length ≤ fuel →
      (remA.map blockDigest : Multiset (List (Nat × Nat))) =
        (remB.map blockDigest : Multiset (List (Nat × Nat))) →
      (remA.map BasicBlock.id).Nodup → (remB.map BasicBlock.id).Nodup →
      (∀ b ∈ remA, b.id ∈
        (greedy BasicBlock.id blockKey blockOk fuel remA remB).map Prod.fst) ∧
      (∀ b ∈ remB, b.id ∈
        (greedy BasicBlock.id blockKey blockOk fuel remA remB).map Prod.snd) := by
  intro fuel
  induction fuel with
  | zero =>
    intro remA remB hlen hbag _ _
    have hA : remA = [] := List.length_eq_zero.mp (Nat.le_zero.mp hlen)
    subst hA
    have hB : remB = [] := by
      have : (remB.map blockDigest : Multiset (List (Nat × Nat))) = 0 := by
        rw [← hbag]; rfl
      have := (Multiset.coe_eq_zero _).mp this
      exact List.map_eq_nil_iff.mp this
    subst hB
    exact ⟨fun b hb => absurd hb (by simp), fun b hb => absurd hb (by simp)⟩
  | succ n ih =>
    intro remA remB hlen hbag hidsA hidsB
    cases hremA : remA with
    | nil =>
      subst hremA
      have hB : remB = [] := by
        have : (remB.map blockDigest : Multiset (List (Nat × Nat))) = 0 := by
          rw [← hbag]; rfl
        exact List.map_eq_nil_iff.mp ((Multiset.coe_eq_zero _).mp this)
      subst hB
      exact ⟨fun b hb => absurd hb (by simp), fun b hb => absurd hb (by simp)⟩
    | cons a as =>
      subst hremA
      have haA : a ∈ a :: as := List.mem_cons_self a as
      have hda : blockDigest a ∈ ((a :: as).map blockDigest :
          Multiset (List (Nat × Nat))) := by
        simp
      rw [hbag] at hda
      have : blockDigest a ∈ remB.map blockDigest := by simpa using hda
      obtain ⟨b, hbB, hdb⟩ := List.mem_map.mp this
      have hcand : (a, b) ∈ ((a :: as).product remB).filter
          (fun p => blockOk p.1 p.2) :=
        List.mem_filter.mpr ⟨List.mem_product.mpr ⟨haA, hbB⟩,
          blockOk_of_digest_eq hdb.symm⟩
      cases hm : pickMax (fun p => blockKey p.1 p.2)
          (((a :: as).product remB).filter (fun p => blockOk p.1 p.2)) with
      | none =>
        exfalso
        have := pickMax_eq_none_iff.mp hm
        rw [this] at hcand
        cases hcand
      | some m =>
        obtain ⟨x, y⟩ := m
        have hmm := pickMax_mem hm
        have hxy := List.mem_filter.mp hmm
        have hx : x ∈ a :: as := (List.mem_product.mp hxy.1).1
        have hy : y ∈ remB := (List.mem_product.mp hxy.1).2
        have hdxy : blockDigest x = blockDigest y := blockOk_digest_eq hxy.2
        have hbagA := map_cons_filter_ne hidsA hx blockDigest
        have hbagB := map_cons_filter_ne hidsB hy blockDigest
        have hbag' : (((a :: as).filter
              (fun z => ¬ BasicBlock.id z = x.id)).map blockDigest :
              Multiset (List (Nat × Nat))) =
            ((remB.filter (fun z => ¬ BasicBlock.id z = y.id)).map blockDigest :
              Multiset (List (Nat × Nat))) := by
          have h1 : blockDigest x ::ₘ
              (((a :: as).filter (fun z => ¬ BasicBlock.id z = x.id)).map
                blockDigest : Multiset (List (Nat × Nat))) =
              blockDigest x ::ₘ
              ((remB.filter (fun z => ¬ BasicBlock.id z = y.id)).map
                blockDigest : Multiset (List (Nat × Nat))) := by
            rw [← hbagA]
            rw [hbag, hbagB, ← hdxy]
          exact (Multiset.cons_inj_right _).mp h1
        have hlenA := congrArg Multiset.card (map_cons_filter_ne hidsA hx
          BasicBlock.id)
        simp only [Multiset.coe_card, List.length_map, Multiset.card_cons]
          at hlenA
        have hlen' : ((a :: as).filter
            (fun z => ¬ BasicBlock.id z = x.id)).length ≤ n := by
          omega
        have hidsA' : (((a :: as).filter
            (fun z => ¬ BasicBlock.id z = x.id)).map BasicBlock.id).Nodup :=
          ((List.filter_sublist _).map BasicBlock.id).nodup hidsA
        have hidsB' : ((remB.filter
            (fun z => ¬ BasicBlock.id z = y.id)).map BasicBlock.id).Nodup :=
          ((List.filter_sublist _).map BasicBlock.id).nodup hidsB
        obtain ⟨ihA, ihB⟩ := ih _ _ hlen' hbag' hidsA' hidsB'
        constructor
        · intro c hc
          simp only [greedy, hm, List.map_cons]
          by_cases hcx : c = x
          · subst hcx
            exact List.mem_cons_self _ _
          · have hcid : ¬ c.id = x.id := by
              intro hEq
              exact hcx (List.inj_on_of_nodup_map hidsA hc hx hEq)
            refine List.mem_cons_of_mem _ (ihA c ?_)
            exact List.mem_filter.mpr ⟨hc, by simpa using hcid⟩
        · intro c hc
          simp only [greedy, hm, List.map_cons]
          by_cases hcy : c = y
          · subst hcy
            exact List.mem_cons_self _ _
          · have hcid : ¬ c.id = y.id := by
              intro hEq
              exact hcy (List.inj_on_of_nodup_map hidsB hc hy hEq)
            refine List.mem_cons_of_mem _ (ihB c ?_)
            exact List.mem_filter.mpr ⟨hc, by simpa using hcid⟩

/-- Core coverage argument for self-alignment at block level: from any
diagonal matched list, propagation residue on the two sides coincides and
the residual greedy pass matches every block of both sides. -/
theorem self_total_core (f : Func) (hids : (f.blocks.map BasicBlock.id).Nodup)
    (M1 : List (Nat × Nat)) (hdiag : ∀ q ∈ M1, q.1 = q.2) :
    ∀ b ∈ f.blocks,
      b.id ∈ (M1 ++ greedy BasicBlock.id blockKey blockOk
          (f.blocks.filter (fun b => ¬ M1.any (fun p => p.1 = b.id))).length
          (f.blocks.filter (fun b => ¬ M1.any (fun p => p.1 = b.id)))
          (f.blocks.filter (fun b => ¬ M1.any (fun p => p.2 = b.id)))).map
        Prod.fst ∧
      b.id ∈ (M1 ++ greedy BasicBlock.id blockKey blockOk
          (f.blocks.filter (fun b => ¬ M1.any (fun p => p.1 = b.id))).length
          (f.blocks.filter (fun b => ¬ M1.any (fun p => p.1 = b.id)))
          (f.blocks.filter (fun b => ¬ M1.any (fun p => p.2 = b.id)))).map
        Prod.snd := by
  have hany : ∀ i : Nat,
      (M1.any (fun p => p.2 = i)) = (M1.any (fun p => p.1 = i)) := by
    intro i
    by_cases h1 : M1.any (fun p => p.2 = i) = true
    · obtain ⟨p, hp, hpi⟩ := List.any_eq_true.mp h1
      rw [h1]
      exact (List.any_eq_true.mpr ⟨p, hp, by
        simp only [decide_eq_true_eq] at hpi ⊢
        rw [hdiag p hp]; exact hpi⟩).symm
    · have h2 : ¬ (M1.any (fun p => p.1 = i) = true) := by
        intro h2
        obtain ⟨p, hp, hpi⟩ := List.any_eq_true.mp h2
        refine h1 (List.any_eq_true.mpr ⟨p, hp, ?_⟩)
        simp only [decide_eq_true_eq] at hpi ⊢
        rw [← hdiag p hp]; exact hpi
      rw [Bool.not_eq_true] at h1 h2
      rw [h1, h2]
  have hremEq : f.blocks.filter (fun b => ¬ M1.any (fun p => p.2 = b.id)) =
      f.blocks.filter (fun b => ¬ M1.any (fun p => p.1 = b.id)) := by
    apply List.filter_congr
    intro b _
    simp only [hany b.id]
  rw [hremEq]
  have hidsr : ((f.blocks.filter
      (fun b => ¬ M1.any (fun p => p.1 = b.id))).map BasicBlock.id).Nodup :=
    ((List.filter_sublist _).map BasicBlock.id).nodup hids
  obtain ⟨ihA, ihB⟩ := greedy_total
    (f.blocks.filter (fun b => ¬ M1.any (fun p => p.1 = b.id))).length
    (f.blocks.filter (fun b => ¬ M1.any (fun p => p.1 = b.id)))
    (f.blocks.filter (fun b => ¬ M1.any (fun p => p.1 = b.id)))
    (Nat.le_refl _) rfl hidsr hidsr
  intro b hb
  constructor
  · by_cases hb1 : M1.any (fun p => p.1 = b.id) = true
    · obtain ⟨p, hp, hpi⟩ := List.any_eq_true.mp hb1
      rw [List.map_append]
      refine List.mem_append_left _ (List.mem_map.mpr ⟨p, hp, ?_⟩)
      simpa using hpi
    · have hbrem : b ∈ f.blocks.filter
          (fun b => ¬ M1.any (fun p => p.1 = b.id)) :=
        List.mem_filter.mpr ⟨hb, decide_eq_true hb1⟩
      rw [List.map_append]
      exact List.mem_append_right _ (ihA b hbrem)
  · by_cases hb1 : M1.any (fun p => p.2 = b.id) = true
    · obtain ⟨p, hp, hpi⟩ := List.any_eq_true.mp hb1
      rw [List.map_append]
      refine List.mem_append_left _ (List.mem_map.mpr ⟨p, hp, ?_⟩)
      simpa using hpi
    · rw [hany b.id] at hb1
      have hbrem : b ∈ f.blocks.filter
          (fun b => ¬ M1.any (fun p => p.1 = b.id)) :=
        List.mem_filter.mpr ⟨hb, decide_eq_true hb1⟩
      rw [List.map_append]
      exact List.mem_append_right _ (ihB b hbrem)

/-- Aligning a function with itself matches every block on both sides:
the block mapping is total and the unmatched sets are empty. -/
theorem alignBlocks_self_total (f : Func)
    (hids : (f.blocks.map BasicBlock.id).Nodup) :
    (alignBlocks f f).unmatchedA = [] ∧ (alignBlocks f f).unmatchedB = [] ∧
    ∀ b ∈ f.blocks,
      b.id ∈ (alignBlocks f f).pairs.map Prod.fst ∧
      b.id ∈ (alignBlocks f f).pairs.map Prod.snd := by
  have hdiag : ∀ q ∈ propagate f f (f.blocks.length + f.blocks.length)
      [(f.entry, f.entry)], q.1 = q.2 :=
    propagate_diag f _ _ (by simp)
  have hcov := self_total_core f hids
    (propagate f f (f.blocks.length + f.blocks.length) [(f.entry, f.entry)])
    hdiag
  have hpairs : (alignBlocks f f).pairs =
      (propagate f f (f.blocks.length + f.blocks.length)
        [(f.entry, f.entry)]) ++
      greedy BasicBlock.id blockKey blockOk
        (f.blocks.filter (fun b => ¬ (propagate f f
          (f.blocks.length + f.blocks.length) [(f.entry, f.entry)]).any
          (fun p => p.1 = b.id))).length
        (f.blocks.filter (fun b => ¬ (propagate f f
          (f.blocks.length + f.blocks.length) [(f.entry, f.entry)]).any
          (fun p => p.1 = b.id)))
        (f.blocks.filter (fun b => ¬ (propagate f f
          (f.blocks.length + f.blocks.length) [(f.entry, f.entry)]).any
          (fun p => p.2 = b.id))) := rfl
  have hcov' : ∀ b ∈ f.blocks,
      b.id ∈ (alignBlocks f f).pairs.map Prod.fst ∧
      b.id ∈ (alignBlocks f f).pairs.map Prod.snd := by
    intro b hb
    rw [hpairs]
    exact hcov b hb
  refine ⟨?_, ?_, hcov'⟩
  · have hunm : (alignBlocks f f).unmatchedA =
        (f.blocks.filter (fun b => ¬ (alignBlocks f f).pairs.any
          (fun p => p.1 = b.id))).map BasicBlock.id := rfl
    rw [hunm, List.map_eq_nil_iff, List.filter_eq_nil_iff]
    intro b hb
    simp only [decide_not, Bool.not_eq_eq_eq_not, Bool.not_true,
      decide_eq_false_iff_not, Decidable.not_not, List.any_eq_true]
    obtain ⟨p, hp, hpi⟩ := List.mem_map.mp ((hcov' b hb).1)
    exact ⟨p, hp, by simp [hpi]⟩
  · have hunm : (alignBlocks f f).unmatchedB =
        (f.blocks.filter (fun b => ¬ (alignBlocks f f).pairs.any
          (fun p => p.2 = b.id))).map BasicBlock.id := rfl
    rw [hunm, List.map_eq_nil_iff, List.filter_eq_nil_iff]
    intro b hb
    simp only [decide_not, Bool.not_eq_eq_eq_not, Bool.not_true,
      decide_eq_false_iff_not, Decidable.not_not, List.any_eq_true]
    obtain ⟨p, hp, hpi⟩ := List.mem_map.mp ((hcov' b hb).2)
    exact ⟨p, hp, by simp [hpi]⟩

/-- With unique function identifiers, lookup by a member's id returns it. -/
theorem findFunc_self {A : Program} (hIds : (A.funcs.map Func.id).Nodup)
    {a : Func} (ha : a ∈ A.funcs) : findFunc A a.id = some a := by
  unfold findFunc
  cases hf : A.funcs.find? (fun f => f.id = a.id) with
  | none =>
    rw [List.find?_eq_none] at hf
    exact absurd (by simp) (hf a ha)
  | some x =>
    have hpx := List.find?_some hf
    have hxm := List.mem_of_find?_eq_some hf
    rw [List.inj_on_of_nodup_map hIds hxm ha (by simpa using hpx)]

/-- Under distinct digests and unique identifiers, the block maps of
`align(A, A)` are the diagonal self-alignments. -/
theorem blockMaps_self {A : Program}
    (hD : (A.funcs.map funcDigest).Nodup)
    (hIds : (A.funcs.map Func.id).Nodup) :
    (alignPrograms A A).blockMaps =
      A.funcs.map (fun a => (a.id, a.id, alignBlocks a a)) := by
  have h1 : (alignPrograms A A).blockMaps = (allPairs A A).filterMap (fun p =>
      match findFunc A p.1, findFunc A p.2.1 with
      | some fa, some fb => some (p.1, p.2.1, alignBlocks fa fb)
      | _, _ => none) := rfl
  rw [h1, allPairs_self hD, List.filterMap_map]
  apply filterMap_eq_map_of_some
  intro a ha
  simp only [Function.comp]
  rw [findFunc_self hIds ha]

/-- C1 (amended): provided the data-model invariants hold (unique function
and block identifiers) and the functions of `A` have pairwise-distinct
digests, `align(A, A)` is the total diagonal bijection at function level
with every pair at confidence `exact`, empty unmatched sets on both sides,
and, per matched pair, a total block-level bijection with empty unmatched
block sets. -/
theorem selfAlign_total_exact (A : Program)
    (hD : (A.funcs.map funcDigest).Nodup)
    (hIds : (A.funcs.map Func.id).Nodup)
    (hBlk : ∀ f ∈ A.funcs, (f.blocks.map BasicBlock.id).Nodup) :
    (alignPrograms A A).funcPairs =
      A.funcs.map (fun a => (a.id, a.id, Confidence.exact)) ∧
    (alignPrograms A A).unmatchedA = [] ∧
    (alignPrograms A A).unmatchedB = [] ∧
    (alignPrograms A A).blockMaps =
      A.funcs.map (fun a => (a.id, a.id, alignBlocks a a)) ∧
    ∀ a ∈ A.funcs,
      (alignBlocks a a).unmatchedA = [] ∧
      (alignBlocks a a).unmatchedB = [] ∧
      ((alignBlocks a a).pairs.map Prod.fst).Nodup ∧
      ((alignBlocks a a).pairs.map Prod.snd).Nodup ∧
      ∀ b ∈ a.blocks,
        b.id ∈ (alignBlocks a a).pairs.map Prod.fst ∧
        b.id ∈ (alignBlocks a a).pairs.map Prod.snd := by
  refine ⟨allPairs_self hD, ?_, ?_, blockMaps_self hD hIds, ?_⟩
  · have h1 : (alignPrograms A A).unmatchedA =
        (A.funcs.filter (fun a => ¬ (allPairs A A).any
          (fun p => p.1 = a.id))).map Func.id := rfl
    rw [h1, List.map_eq_nil_iff, List.filter_eq_nil_iff]
    intro a ha
    rw [allPairs_self hD]
    simp only [decide_not, Bool.not_eq_eq_eq_not, Bool.not_true,
      decide_eq_false_iff_not, Decidable.not_not, List.any_eq_true]
    exact ⟨(a.id, a.id, Confidence.exact), List.mem_map.mpr ⟨a, ha, rfl⟩,
      by simp⟩
  · have h1 : (alignPrograms A A).unmatchedB =
        (A.funcs.filter (fun b => ¬ (allPairs A A).any
          (fun p => p.2.1 = b.id))).map Func.id := rfl
    rw [h1, List.map_eq_nil_iff, List.filter_eq_nil_iff]
    intro a ha
    rw [allPairs_self hD]
    simp only [decide_not, Bool.not_eq_eq_eq_not, Bool.not_true,
      decide_eq_false_iff_not, Decidable.not_not, List.any_eq_true]
    exact ⟨(a.id, a.id, Confidence.exact), List.mem_map.mpr ⟨a, ha, rfl⟩,
      by simp⟩
  · intro a ha
    obtain ⟨hu1, hu2, hcov⟩ := alignBlocks_self_total a (hBlk a ha)
    obtain ⟨hn1, hn2⟩ := alignBlocks_nodup a a
    exact ⟨hu1, hu2, hn1, hn2, hcov⟩

/-- Witness for the amended C1 at a concrete program. -/
theorem selfAlign_total_exact_witness :
    (alignPrograms wProg wProg).funcPairs =
      wProg.funcs.map (fun a => (a.id, a.id, Confidence.exact)) ∧
    (alignPrograms wProg wProg).unmatchedA = [] ∧
    (alignPrograms wProg wProg).unmatchedB = [] ∧
    (alignPrograms wProg wProg).blockMaps =
      wProg.funcs.map (fun a => (a.id, a.id, alignBlocks a a)) ∧
    ∀ a ∈ wProg.funcs,
      (alignBlocks a a).unmatchedA = [] ∧
      (alignBlocks a a).unmatchedB = [] ∧
      ((alignBlocks a a).pairs.map Prod.fst).Nodup ∧
      ((alignBlocks a a).pairs.map Prod.snd).Nodup ∧
      ∀ b ∈ a.blocks,
        b.id ∈ (alignBlocks a a).pairs.map Prod.fst ∧
        b.id ∈ (alignBlocks a a).pairs.map Prod.snd :=
  selfAlign_total_exact wProg (by decide) (by decide) (by decide)

/-- Two functions with identical content (hence identical digests) but
different names: the exact pass must defer them, so self-alignment matches
them in the name pass. -/
def progDup : Program :=
  ⟨[⟨0, some "f", 0, [⟨0, [], []⟩]⟩, ⟨1, some "g", 0, [⟨0, [], []⟩]⟩]⟩

/-- Counterexample to C1 as stated: for `progDup`, `align(A, A)` matches
every function, but not every pair carries confidence `exact` — the two
identical-digest functions are matched by the name pass. -/
theorem selfAlign_all_exact_fails :
    ¬ ∀ p ∈ (alignPrograms progDup progDup).funcPairs,
      p.2.2 = Confidence.exact := by decide

/-! ### Iteration-order independence of the matcher -/

/-- The key order is irreflexive. -/
theorem kLt_irrefl (p : Nat × Nat × Nat × Nat) : ¬ kLt p p := by
  unfold kLt; omega

/-- The key order is transitive. -/
theorem kLt_trans {p q r : Nat × Nat × Nat × Nat}
    (h1 : kLt p q) (h2 : kLt q r) : kLt p r := by
  unfold kLt at h1 h2 ⊢; omega

/-- Two mutually incomparable keys are equal. -/
theorem kLt_connex {p q : Nat × Nat × Nat × Nat}
    (h1 : ¬ kLt p q) (h2 : ¬ kLt q p) : p = q := by
  unfold kLt at h1 h2
  obtain ⟨p1, p2, p3, p4⟩ := p
  obtain ⟨q1, q2, q3, q4⟩ := q
  simp only at h1 h2
  simp only [Prod.mk.injEq]
  omega

/-- A Boolean `any` is invariant under permutation. -/
theorem any_perm {l l' : List α} (h : l.Perm l') (f : α → Bool) :
    l.any f = l'.any f := by
  by_cases h1 : l.any f = true
  · obtain ⟨x, hx, hfx⟩ := List.any_eq_true.mp h1
    rw [h1, (List.any_eq_true.mpr ⟨x, h.mem_iff.mp hx, hfx⟩).symm]
  · have h2 : ¬ (l'.any f = true) := by
      intro h2
      obtain ⟨x, hx, hfx⟩ := List.any_eq_true.mp h2
      exact h1 (List.any_eq_true.mpr ⟨x, h.mem_iff.mpr hx, hfx⟩)
    rw [Bool.not_eq_true] at h1 h2
    rw [h1, h2]

/-- `pickUnique` is invariant under permutation. -/
theorem pickUnique_perm {l l' : List Func} (h : l.Perm l') :
    pickUnique l = pickUnique l' := by
  have hlen := h.length_eq
  match l, l' with
  | [], [] => rfl
  | [x], [y] =>
    have : x = y := by
      have := h.mem_iff.mp (List.mem_cons_self x [])
      simpa using this
    rw [this]
  | [], y :: ys => simp at hlen
  | x :: xs, [] => simp at hlen
  | [x], y1 :: y2 :: ys => simp at hlen
  | x1 :: x2 :: xs, [y] => simp at hlen
  | x1 :: x2 :: xs, y1 :: y2 :: ys => rfl

/-- The fold inside `pickMax` returns a maximal element. -/
theorem pickMax_foldl_spec {key : α → Nat × Nat × Nat × Nat} :
    ∀ (l : List α) (acc : Option α) (m : α),
      l.foldl (fun acc c =>
        match acc with
        | none => some c
        | some m => if kLt (key m) (key c) then some c else some m) acc =
        some m →
      (m ∈ l ∨ acc = some m) ∧ (∀ x ∈ l, ¬ kLt (key m) (key x)) ∧
        (∀ a, acc = some a → ¬ kLt (key m) (key a)) := by
  intro l
  induction l with
  | nil =>
    intro acc m h
    simp only [List.foldl_nil] at h
    refine ⟨Or.inr h, by simp, ?_⟩
    intro a ha
    rw [h] at ha
    cases ha
    exact kLt_irrefl _
  | cons c cs ih =>
    intro acc m h
    rw [List.foldl_cons] at h
    cases acc with
    | none =>
      obtain ⟨hmem, hmax, hacc⟩ := ih (some c) m h
      have hmc : ¬ kLt (key m) (key c) := hacc c rfl
      refine ⟨?_, ?_, by simp⟩
      · rcases hmem with hm | hm
        · exact Or.inl (List.mem_cons_of_mem _ hm)
        · cases hm; exact Or.inl (List.mem_cons_self _ _)
      · intro x hx
        rcases List.mem_cons.mp hx with rfl | hx
        · exact hmc
        · exact hmax x hx
    | some m0 =>
      dsimp only at h
      by_cases hlt : kLt (key m0) (key c)
      · rw [if_pos hlt] at h
        obtain ⟨hmem, hmax, hacc⟩ := ih (some c) m h
        have hmc : ¬ kLt (key m) (key c) := hacc c rfl
        have hmm0 : ¬ kLt (key m) (key m0) := by
          intro hk
          exact hmc (kLt_trans hk hlt)
        refine ⟨?_, ?_, ?_⟩
        · rcases hmem with hm | hm
          · exact Or.inl (List.mem_cons_of_mem _ hm)
          · cases hm; exact Or.inl (List.mem_cons_self _ _)
        · intro x hx
          rcases List.mem_cons.mp hx with rfl | hx
          · exact hmc
          · exact hmax x hx
        · intro a ha
          cases ha
          exact hmm0
      · rw [if_neg hlt] at h
        obtain ⟨hmem, hmax, hacc⟩ := ih (some m0) m h
        have hmm0 : ¬ kLt (key m) (key m0) := hacc m0 rfl
        have hmc : ¬ kLt (key m) (key c) := by
          intro hk
          rcases Decidable.em (kLt (key c) (key m0)) with hc | hc
          · exact hmm0 (kLt_trans hk hc)
          · rw [← kLt_connex hlt hc] at hk
            exact hmm0 hk
        refine ⟨?_, ?_, ?_⟩
        · rcases hmem with hm | hm
          · exact Or.inl (List.mem_cons_of_mem _ hm)
          · cases hm; exact Or.inr rfl
        · intro x hx
          rcases List.mem_cons.mp hx with rfl | hx
          · exact hmc
          · exact hmax x hx
        · intro a ha
          cases ha
          exact hmm0
/-- `pickMax` returns a maximal element of its input. -/
theorem pickMax_spec {key : α → Nat × Nat × Nat × Nat} {l : List α} {m : α}
    (h : pickMax key l = some m) :
    m ∈ l ∧ ∀ x ∈ l, ¬ kLt (key m) (key x) := by
  obtain ⟨hmem, hmax, -⟩ := pickMax_foldl_spec l none m h
  rcases hmem with hm | hm
  · exact ⟨hm, hmax⟩
  · exact absurd hm (by simp)

/-- With keys injective over the list, `pickMax` is invariant under
permutation. -/
theorem pickMax_perm {key : α → Nat × Nat × Nat × Nat} {l l' : List α}
    (h : l.Perm l')
    (hinj : ∀ x ∈ l, ∀ y ∈ l, key x = key y → x = y) :
    pickMax key l = pickMax key l' := by
  cases hm : pickMax key l with
  | none =>
    have := pickMax_eq_none_iff.mp hm
    subst this
    rw [pickMax_eq_none_iff.mpr (List.Perm.eq_nil (h.symm))]
  | some m =>
    cases hm' : pickMax key l' with
    | none =>
      have := pickMax_eq_none_iff.mp hm'
      subst this
      have := List.Perm.eq_nil h
      subst this
      rw [← hm, pickMax_eq_none_iff.mpr rfl]
    | some m' =>
      obtain ⟨hmem, hmax⟩ := pickMax_spec hm
      obtain ⟨hmem', hmax'⟩ := pickMax_spec hm'
      have hm'l : m' ∈ l := h.mem_iff.mpr hmem'
      have hml' : m ∈ l' := h.mem_iff.mp hmem
      have h1 : ¬ kLt (key m) (key m') := hmax m' hm'l
      have h2 : ¬ kLt (key m') (key m) := hmax' m hml'
      rw [hinj m hmem m' hm'l (kLt_connex h2 h1).symm]

/-- When keys determine identifiers and identifiers are unique, the greedy
assignment is invariant under permutation of both candidate sides. -/
theorem greedy_perm {idOf : α → Nat} {key : α → α → Nat × Nat × Nat × Nat}
    {ok : α → α → Bool}
    (hkey : ∀ a b a' b', key a b = key a' b' →
      idOf a = idOf a' ∧ idOf b = idOf b') :
    ∀ (fuel : Nat) (remA remA' remB remB' : List α),
      remA'.Perm remA → remB'.Perm remB →
      (remA.map idOf).Nodup → (remB.map idOf).Nodup →
      greedy idOf key ok fuel remA' remB' =
        greedy idOf key ok fuel remA remB := by
  intro fuel
  induction fuel with
  | zero => intros; rfl
  | succ n ih =>
    intro remA remA' remB remB' hA hB hnA hnB
    have hprod : ((remA'.product remB').filter (fun p => ok p.1 p.2)).Perm
        ((remA.product remB).filter (fun p => ok p.1 p.2)) :=
      (hA.product hB).filter _
    have hinj : ∀ x ∈ (remA'.product remB').filter (fun p => ok p.1 p.2),
        ∀ y ∈ (remA'.product remB').filter (fun p => ok p.1 p.2),
        key x.1 x.2 = key y.1 y.2 → x = y := by
      intro x hx y hy hk
      have hx' := List.mem_product.mp (List.mem_filter.mp hx).1
      have hy' := List.mem_product.mp (List.mem_filter.mp hy).1
      obtain ⟨h1, h2⟩ := hkey x.1 x.2 y.1 y.2 hk
      have e1 : x.1 = y.1 := List.inj_on_of_nodup_map hnA
        (hA.mem_iff.mp hx'.1) (hA.mem_iff.mp hy'.1) h1
      have e2 : x.2 = y.2 := List.inj_on_of_nodup_map hnB
        (hB.mem_iff.mp hx'.2) (hB.mem_iff.mp hy'.2) h2
      exact Prod.ext e1 e2
    have hpick : pickMax (fun p => key p.1 p.2)
        ((remA'.product remB').filter (fun p => ok p.1 p.2)) =
        pickMax (fun p => key p.1 p.2)
        ((remA.product remB).filter (fun p => ok p.1 p.2)) :=
      pickMax_perm hprod hinj
    cases hm : pickMax (fun p => key p.1 p.2)
        ((remA.product remB).filter (fun p => ok p.1 p.2)) with
    | none =>
      show greedy idOf key ok (n + 1) remA' remB' =
        greedy idOf key ok (n + 1) remA remB
      simp only [greedy]
      rw [hpick, hm]
    | some ab =>
      obtain ⟨a, b⟩ := ab
      show greedy idOf key ok (n + 1) remA' remB' =
        greedy idOf key ok (n + 1) remA remB
      simp only [greedy]
      rw [hpick, hm]
      dsimp only
      congr 1
      exact ih (remA.filter (fun x => ¬ idOf x = idOf a))
        (remA'.filter (fun x => ¬ idOf x = idOf a))
        (remB.filter (fun x => ¬ idOf x = idOf b))
        (remB'.filter (fun x => ¬ idOf x = idOf b))
        (hA.filter _) (hB.filter _)
        (((List.filter_sublist _).map idOf).nodup hnA)
        (((List.filter_sublist _).map idOf).nodup hnB)

/-- The exact-pass decision depends only on filter contents, not on
storage order. -/
theorem exactBody_perm {A A' B B' : List Func}
    (hA : A'.Perm A) (hB : B'.Perm B) (a : Func) :
    exactBody A' B' a = exactBody A B a := by
  unfold exactBody
  rw [List.Perm.length_eq (hA.filter _), pickUnique_perm (hB.filter _)]

/-- The exact stage is permutation-invariant up to pair order. -/
theorem exactStage_perm {A A' B B' : Program}
    (hA : A'.funcs.Perm A.funcs) (hB : B'.funcs.Perm B.funcs) :
    (exactStage A' B').Perm (exactStage A B) := by
  unfold exactStage exactPairs
  rw [List.filterMap_congr (fun a _ => exactBody_perm hA hB a)]
  exact hA.filterMap _

/-- Side A residue after the exact stage, up to permutation. -/
theorem restA1_perm {A A' B B' : Program}
    (hA : A'.funcs.Perm A.funcs) (hB : B'.funcs.Perm B.funcs) :
    (restA1 A' B').Perm (restA1 A B) := by
  unfold restA1
  have hany : ∀ i : Nat, (exactStage A' B').any (fun p => p.1 = i) =
      (exactStage A B).any (fun p => p.1 = i) :=
    fun i => any_perm (exactStage_perm hA hB) _
  rw [List.filter_congr (fun a _ => by rw [hany a.id])]
  exact hA.filter _

/-- Side B residue after the exact stage, up to permutation. -/
theorem restB1_perm {A A' B B' : Program}
    (hA : A'.funcs.Perm A.funcs) (hB : B'.funcs.Perm B.funcs) :
    (restB1 A' B').Perm (restB1 A B) := by
  unfold restB1
  have hany : ∀ i : Nat, (exactStage A' B').any (fun p => p.2 = i) =
      (exactStage A B).any (fun p => p.2 = i) :=
    fun i => any_perm (exactStage_perm hA hB) _
  rw [List.filter_congr (fun b _ => by rw [hany b.id])]
  exact hB.filter _

/-- The name-pass decision depends only on filter contents, not on
storage order. -/
theorem nameBody_perm {A A' B B' : List Func}
    (hA : A'.Perm A) (hB : B'.Perm B) (a : Func) :
    nameBody A' B' a = nameBody A B a := by
  unfold nameBody
  cases hn : a.name with
  | none => rfl
  | some n =>
    dsimp only
    rw [List.Perm.length_eq (hA.filter _), pickUnique_perm (hB.filter _)]

/-- The name stage is permutation-invariant up to pair order. -/
theorem nameStage_perm {A A' B B' : Program}
    (hA : A'.funcs.Perm A.funcs) (hB : B'.funcs.Perm B.funcs) :
    (nameStage A' B').Perm (nameStage A B) := by
  unfold nameStage namePairs
  rw [List.filterMap_congr
    (fun a _ => nameBody_perm (restA1_perm hA hB) (restB1_perm hA hB) a)]
  exact (restA1_perm hA hB).filterMap _

/-- Side A residue after the name stage, up to permutation. -/
theorem restA2_perm {A A' B B' : Program}
    (hA : A'.funcs.Perm A.funcs) (hB : B'.funcs.Perm B.funcs) :
    (restA2 A' B').Perm (restA2 A B) := by
  unfold restA2
  have hany : ∀ i : Nat, (nameStage A' B').any (fun p => p.1 = i) =
      (nameStage A B).any (fun p => p.1 = i) :=
    fun i => any_perm (nameStage_perm hA hB) _
  rw [List.filter_congr (fun a _ => by rw [hany a.id])]
  exact (restA1_perm hA hB).filter _

/-- Side B residue after the name stage, up to permutation. -/
theorem restB2_perm {A A' B B' : Program}
    (hA : A'.funcs.Perm A.funcs) (hB : B'.funcs.Perm B.funcs) :
    (restB2 A' B').Perm (restB2 A B) := by
  unfold restB2
  have hany : ∀ i : Nat, (nameStage A' B').any (fun p => p.2 = i) =
      (nameStage A B).any (fun p => p.2 = i) :=
    fun i => any_perm (nameStage_perm hA hB) _
  rw [List.filter_congr (fun b _ => by rw [hany b.id])]
  exact (restB1_perm hA hB).filter _

/-- The fuzzy stage produces the very same pair sequence regardless of
the storage order (unique maxima thanks to the identifier tie-breaks). -/
theorem fuzzyStage_eq {A A' B B' : Program}
    (hA : A'.funcs.Perm A.funcs) (hB : B'.funcs.Perm B.funcs)
    (hIdsA : (A.funcs.map Func.id).Nodup)
    (hIdsB : (B.funcs.map Func.id).Nodup) :
    fuzzyStage A' B' = fuzzyStage A B := by
  unfold fuzzyStage fuzzyPairs
  rw [List.Perm.length_eq (restA2_perm hA hB)]
  have hsubA : List.Sublist (restA2 A B) A.funcs :=
    (List.filter_sublist _).trans (List.filter_sublist _)
  have hsubB : List.Sublist (restB2 A B) B.funcs :=
    (List.filter_sublist _).trans (List.filter_sublist _)
  exact greedy_perm
    (fun a b a' b' h =>
      ⟨congrArg (fun k => k.2.2.1) h, congrArg (fun k => k.2.2.2) h⟩)
    (restA2 A B).length (restA2 A B) (restA2 A' B') (restB2 A B)
    (restB2 A' B') (restA2_perm hA hB) (restB2_perm hA hB)
    ((hsubA.map Func.id).nodup hIdsA) ((hsubB.map Func.id).nodup hIdsB)

/-- All pairs of a run, up to permutation. -/
theorem allPairs_perm {A A' B B' : Program}
    (hA : A'.funcs.Perm A.funcs) (hB : B'.funcs.Perm B.funcs)
    (hIdsA : (A.funcs.map Func.id).Nodup)
    (hIdsB : (B.funcs.map Func.id).Nodup) :
    (allPairs A' B').Perm (allPairs A B) := by
  unfold allPairs
  rw [fuzzyStage_eq hA hB hIdsA hIdsB]
  exact (((exactStage_perm hA hB).map _).append
    ((nameStage_perm hA hB).map _)).append (List.Perm.refl _)

/-- C2: the Function Matcher has no dependence on iteration order — for
programs presented in any storage order (with unique identifiers), two runs
produce the same Correspondence Map: the same set of matched pairs with the
same confidence tags, and the same unmatched residues. -/
theorem matchFuncs_iteration_order_independent
    (A A' B B' : Program)
    (hA : A'.funcs.Perm A.funcs) (hB : B'.funcs.Perm B.funcs)
    (hIdsA : (A.funcs.map Func.id).Nodup)
    (hIdsB : (B.funcs.map Func.id).Nodup) :
    (matchFuncs A' B').pairs.Perm ((matchFuncs A B).pairs) ∧
    (matchFuncs A' B').unmatchedA.Perm ((matchFuncs A B).unmatchedA) ∧
    (matchFuncs A' B').unmatchedB.Perm ((matchFuncs A B).unmatchedB) := by
  have hap := allPairs_perm hA hB hIdsA hIdsB
  refine ⟨hap, ?_, ?_⟩
  · have hany : ∀ i : Nat, (allPairs A' B').any (fun p => p.1 = i) =
        (allPairs A B).any (fun p => p.1 = i) := fun i => any_perm hap _
    have h1 : (matchFuncs A' B').unmatchedA =
        (A'.funcs.filter (fun a => ¬ (allPairs A B).any
          (fun p => p.1 = a.id))).map Func.id := by
      show (A'.funcs.filter (fun a => ¬ (allPairs A' B').any
        (fun p => p.1 = a.id))).map Func.id = _
      rw [List.filter_congr (fun a _ => by rw [hany a.id])]
    rw [h1]
    exact (hA.filter _).map _
  · have hany : ∀ i : Nat, (allPairs A' B').any (fun p => p.2.1 = i) =
        (allPairs A B).any (fun p => p.2.1 = i) := fun i => any_perm hap _
    have h1 : (matchFuncs A' B').unmatchedB =
        (B'.funcs.filter (fun b => ¬ (allPairs A B).any
          (fun p => p.2.1 = b.id))).map Func.id := by
      show (B'.funcs.filter (fun b => ¬ (allPairs A' B').any
        (fun p => p.2.1 = b.id))).map Func.id = _
      rw [List.filter_congr (fun b _ => by rw [hany b.id])]
    rw [h1]
    exact (hB.filter _).map _

/-- A storage-order permutation of `wProg`'s single function list (the
identity permutation on a one-element list, plus a genuinely permuted
two-function program used to exercise the statement). -/
def wProgPair : Program :=
  ⟨[⟨1, some "g", 0, [⟨0, [⟨9, 9⟩], []⟩]⟩, ⟨0, some "w", 0,
    [⟨0, [⟨1, 0⟩], [(.fallthrough, 1)]⟩, ⟨1, [⟨2, 0⟩], []⟩]⟩]⟩

/-- The same two functions as `wProgPair` in the opposite storage order. -/
def wProgPairSwapped : Program :=
  ⟨[⟨0, some "w", 0, [⟨0, [⟨1, 0⟩], [(.fallthrough, 1)]⟩, ⟨1, [⟨2, 0⟩], []⟩]⟩,
    ⟨1, some "g", 0, [⟨0, [⟨9, 9⟩], []⟩]⟩]⟩

/-- Witness for C2: swapping the storage order of the two functions leaves
the matcher's result unchanged up to pair order. -/
theorem matchFuncs_iteration_order_independent_witness :
    (matchFuncs wProgPairSwapped wProg).pairs.Perm
      ((matchFuncs wProgPair wProg).pairs) ∧
    (matchFuncs wProgPairSwapped wProg).unmatchedA.Perm
      ((matchFuncs wProgPair wProg).unmatchedA) ∧
    (matchFuncs wProgPairSwapped wProg).unmatchedB.Perm
      ((matchFuncs wProgPair wProg).unmatchedB) :=
  matchFuncs_iteration_order_independent wProgPair wProgPairSwapped wProg wProg
    (by decide) (List.Perm.refl _) (by decide) (by decide)
